import Mathlib

/-!
Verification development for the autotest-docker test harness.

The definitions below are a shallow embedding of the configuration
resolution layer (src/dockertest/config.py), the sub-subtest orchestration
layer (src/dockertest/subtest.py) and the tabular output parser exercised
by src/dockertest/output_unittests.py.  Python strings are Lean `String`,
Python dictionaries are association lists (`List (String × String)`) with
first-match lookup, and fallible code returns `Option`/`Except`.
-/

/-! ## Python string primitives used by config.py -/

/-- Python `str.strip()` on ASCII whitespace: drop whitespace from both ends. -/
def pyStrip (s : String) : String :=
  ⟨((s.data.dropWhile Char.isWhitespace).reverse.dropWhile Char.isWhitespace).reverse⟩

/-- Lower-case one ASCII character, as Python `str.lower()` does per character. -/
def lcChar (c : Char) : Char :=
  if 'A' ≤ c ∧ c ≤ 'Z' then Char.ofNat (c.toNat + 32) else c

/-- Python `str.lower()` restricted to ASCII characters. -/
def pyLower (s : String) : String := ⟨s.data.map lcChar⟩

/-- Numeric value of a run of decimal digit characters. -/
def digitsToNat (ds : List Char) : Nat :=
  ds.foldl (fun n c => n * 10 + (c.toNat - 48)) 0

/-- Python `int(s)` for base-10 string input: surrounding whitespace allowed,
optional sign, then a nonempty run of digits; anything else is a ValueError
(`none`). -/
def parsePyInt (s : String) : Option Int :=
  let t := (pyStrip s).data
  let signDigits : Bool × List Char :=
    match t with
    | '+' :: rest => (false, rest)
    | '-' :: rest => (true, rest)
    | cs => (false, cs)
  let neg := signDigits.1
  let ds := signDigits.2
  if ds ≠ [] ∧ ds.all Char.isDigit then
    some (if neg then -(digitsToNat ds : Int) else (digitsToNat ds : Int))
  else none

/-- The values Python `float(s)` can produce.  A finite value is carried
exactly as the decimal fraction `num / den` the literal denotes, kept
unnormalized as parsed.  The binary rounding of the decimal literal is not
modelled; only which strings parse, and the decimal they denote, matter to
the configuration claims. -/
inductive PyFloat
  | finite (num : Int) (den : Nat)
  | inf (neg : Bool)
  | nan
deriving DecidableEq, Repr

/-- Split a character list at the first occurrence of `c`, if any. -/
def splitAtFirst (c : Char) : List Char → Option (List Char × List Char)
  | [] => none
  | x :: xs =>
    if x = c then some ([], xs)
    else match splitAtFirst c xs with
      | none => none
      | some (l, r) => some (x :: l, r)

/-- Mantissa of a Python float literal: `digits`, `digits.digits`,
`digits.` or `.digits` (at least one digit overall), as an unsigned
numerator/denominator pair. -/
def parseMantissa (cs : List Char) : Option (Nat × Nat) :=
  match splitAtFirst '.' cs with
  | none =>
    if cs ≠ [] ∧ cs.all Char.isDigit then some (digitsToNat cs, 1) else none
  | some (i, f) =>
    if (i ++ f) ≠ [] ∧ i.all Char.isDigit ∧ f.all Char.isDigit then
      some (digitsToNat i * 10 ^ f.length + digitsToNat f, 10 ^ f.length)
    else none

/-- Exponent part of a Python float literal: optional sign, nonempty digits. -/
def parseExponent (cs : List Char) : Option Int :=
  let signDigits : Bool × List Char :=
    match cs with
    | '+' :: rest => (false, rest)
    | '-' :: rest => (true, rest)
    | l => (false, l)
  let neg := signDigits.1
  let ds := signDigits.2
  if ds ≠ [] ∧ ds.all Char.isDigit then
    some (if neg then -(digitsToNat ds : Int) else (digitsToNat ds : Int))
  else none

/-- Python `float(s)`: surrounding whitespace stripped, case-insensitive,
optional sign, then `inf`/`infinity`/`nan` or a decimal mantissa with an
optional `e`-exponent.  Returns `none` on ValueError. -/
def parsePyFloat (s : String) : Option PyFloat :=
  let t := (pyLower (pyStrip s)).data
  let signBody : Bool × List Char :=
    match t with
    | '+' :: rest => (false, rest)
    | '-' :: rest => (true, rest)
    | cs => (false, cs)
  let neg := signBody.1
  let body := signBody.2
  if body = ['i', 'n', 'f'] ∨ body = ['i', 'n', 'f', 'i', 'n', 'i', 't', 'y'] then
    some (.inf neg)
  else if body = ['n', 'a', 'n'] then some .nan
  else
    let signed : Nat → Int := fun n => if neg then -(n : Int) else (n : Int)
    match splitAtFirst 'e' body with
    | none => (parseMantissa body).map fun m => .finite (signed m.1) m.2
    | some (m, e) =>
      match parseMantissa m, parseExponent e with
      | some mv, some ev =>
        match ev with
        | .ofNat k => some (.finite (signed (mv.1 * 10 ^ k)) mv.2)
        | .negSucc k => some (.finite (signed mv.1) (mv.2 * 10 ^ (k + 1)))
      | _, _ => none

/-! ## SafeConfigParser value interpolation

`SafeConfigParser.get` always %-interpolates the stored value
(`ConfigParser._interpolate_some`): literal `%%` becomes `%`, `%(name)s`
substitutes the named option of the merged defaults-plus-section mapping
(recursively when the substituted value itself contains `%`, at most
`MAX_INTERPOLATION_DEPTH = 10` levels), and any other `%` raises
InterpolationSyntaxError.  None of these errors is a ValueError, so they
escape the typed-lookup suffix loop uncaught. -/

theorem dropWhile_len {α : Type} (p : α → Bool) (l : List α) :
    (l.dropWhile p).length ≤ l.length := by
  induction l with
  | nil => simp
  | cons c t ih =>
    rw [List.dropWhile_cons]
    by_cases h : p c
    · rw [if_pos h]
      exact Nat.le_trans ih (Nat.le_succ _)
    · rw [if_neg h]

/-- The interpolation failures of `_interpolate_some`: a stray or
malformed `%` reference, a reference to a missing option, and exceeding
the nesting depth limit.  None is a ValueError. -/
inductive IErr
  | syntaxError
  | missingOption (var : String)
  | depthError
deriving DecidableEq, Repr

/-- `ConfigParser._interpolate_some` over the characters of the value.
`mp` is the merged defaults-plus-section mapping (section wins); the first
argument is the remaining nesting budget (`MAX_INTERPOLATION_DEPTH` minus
the current depth): a nested substitution from a zero-budget call is the
InterpolationDepthError the source raises at depth 11.  `%%` emits `%`;
`%(name)s` (the name nonempty and free of closing parens, per the
`interpvar` regular expression) substitutes `mp` at the lower-cased name,
recursing when the value contains `%`; any other `%` is an
InterpolationSyntaxError. -/
def interpChars (mp : String → Option String) : Nat → List Char → Except IErr (List Char)
  | budget, rest =>
    match rest with
    | [] => .ok []
    | '%' :: tail =>
      match tail with
      | '%' :: rest2 => (interpChars mp budget rest2).map (fun l => '%' :: l)
      | '(' :: rest2 =>
        let nm := rest2.takeWhile (fun c => c ≠ ')')
        match hdw : rest2.dropWhile (fun c => c ≠ ')') with
        | ')' :: 's' :: after =>
          if nm = [] then .error .syntaxError
          else
            match mp (pyLower ⟨nm⟩) with
            | none => .error (.missingOption (pyLower ⟨nm⟩))
            | some v =>
              if '%' ∈ v.data then
                match budget with
                | 0 => .error .depthError
                | b + 1 =>
                  match interpChars mp b v.data with
                  | .error e => .error e
                  | .ok inner =>
                    match interpChars mp (b + 1) after with
                    | .error e => .error e
                    | .ok out => .ok (inner ++ out)
              else
                (interpChars mp budget after).map (fun l => v.data ++ l)
        | _ => .error .syntaxError
      | _ => .error .syntaxError
    | c :: tail => (interpChars mp budget tail).map (fun l => c :: l)
  termination_by budget rest => (budget, rest.length)
  decreasing_by
  all_goals simp_wf
  all_goals first
  | (apply Prod.Lex.left
     omega)
  | (apply Prod.Lex.right
     omega)
  | (apply Prod.Lex.right
     have hlen := dropWhile_len (fun c => decide (c ≠ ')')) rest2
     rw [hdw] at hlen
     simp only [List.length_cons] at hlen
     omega)

/-- `SafeConfigParser._interpolate`: interpolate a raw value at depth 1,
that is with 9 of the 10 permitted depth levels remaining. -/
def interpolate (mp : String → Option String) (raw : String) : Except IErr String :=
  (interpChars mp 9 raw.data).map (fun l => ⟨l⟩)

/-- A value without `%` interpolates to itself. -/
theorem interpChars_nopercent (mp : String → Option String) (budget : Nat) :
    ∀ (cs : List Char), '%' ∉ cs → interpChars mp budget cs = .ok cs := by
  intro cs
  induction cs with
  | nil => intro _; simp [interpChars]
  | cons c tail ih =>
    intro h
    simp only [List.mem_cons, not_or] at h
    have hc : ¬ c = '%' := fun hcc => h.1 hcc.symm
    rw [interpChars]
    · rw [ih h.2]
      rfl
    · exact fun hcc => hc hcc

/-- A value without `%` interpolates to itself. -/
theorem interpolate_nopercent (mp : String → Option String) (raw : String)
    (h : '%' ∉ raw.data) : interpolate mp raw = .ok raw := by
  unfold interpolate
  rw [interpChars_nopercent mp 9 raw.data h]
  rfl

/-! ## ConfigSection (config.py lines 39..203)

`ConfigSection` wraps a `SafeConfigParser` holding exactly one section plus
the shared defaults mapping.  `SafeConfigParser` lower-cases option keys on
write (`optionxform`) and lower-cases defaults keys at construction, so the
stored keys are lower-case; theorems carry that as the `ConfigSection.WF`
hypothesis.  Value interpolation (`%(name)s`) is not modelled: values are
treated as raw strings. -/

structure ConfigSection where
  sectionName : String
  scpDefaults : List (String × String)
  opts : List (String × String)
deriving DecidableEq, Repr

/-- Stored option and defaults keys are lower-case, as `optionxform`
guarantees in the source. -/
def ConfigSection.WF (cs : ConfigSection) : Prop :=
  (∀ kv ∈ cs.opts, pyLower kv.1 = kv.1) ∧
  (∀ kv ∈ cs.scpDefaults, pyLower kv.1 = kv.1)

instance (cs : ConfigSection) : Decidable cs.WF := by
  unfold ConfigSection.WF; infer_instance

/-- The merged mapping `d` of `ConfigParser.get`: defaults updated by the
section dictionary, so the section wins.  It is both the raw-value store
and the mapping interpolation variables resolve against.  (The `__name__`
bookkeeping entry the file reader inserts into a section dictionary, and
removes again from `options()` and `items()`, is not part of the modelled
store: `opts` holds the declared options.) -/
def ConfigSection.dMap (cs : ConfigSection) : String → Option String := fun k =>
  match cs.opts.lookup k with
  | some v => some v
  | none => cs.scpDefaults.lookup k

/-- The raw value `d[optionxform(option)]` before interpolation; `none` is
NoOptionError. -/
def ConfigSection.rawGet (cs : ConfigSection) (option : String) : Option String :=
  cs.dMap (pyLower option)

/-- Errors the typed getters can raise: NoOptionError, ValueError from a
failed coercion, or an InterpolationError from `SafeConfigParser.get`. -/
inductive GetErr
  | noOption
  | valueError
  | interp (e : IErr)
deriving DecidableEq, Repr

/-- `SafeConfigParser.get` via `ConfigSection.get` (config.py 125..129):
fetch the raw value of the merged mapping, then %-interpolate it against
that same mapping. -/
def ConfigSection.get (cs : ConfigSection) (option : String) : Except GetErr String :=
  match cs.rawGet option with
  | none => .error .noOption
  | some value =>
    match interpolate cs.dMap value with
    | .ok out => .ok out
    | .error e => .error (.interp e)

/-- `RawConfigParser.options(section)`: keys of the section dictionary
updated with the defaults — the merged key set. -/
def ConfigSection.optionKeys (cs : ConfigSection) : List String :=
  ((cs.opts.map Prod.fst) ++ (cs.scpDefaults.map Prod.fst)).dedup

/-- `RawConfigParser.defaults()`: keys of the defaults mapping. -/
def ConfigSection.defaultKeys (cs : ConfigSection) : List String :=
  cs.scpDefaults.map Prod.fst

/-- `ConfigSection.getint` = `SafeConfigParser.getint`: `int()` of the
interpolated value. -/
def ConfigSection.getint (cs : ConfigSection) (option : String) : Except GetErr Int :=
  match cs.get option with
  | .error e => .error e
  | .ok raw =>
    match parsePyInt raw with
    | some i => .ok i
    | none => .error .valueError

/-- `ConfigSection.getfloat` = `SafeConfigParser.getfloat`: `float()` of
the interpolated value. -/
def ConfigSection.getfloat (cs : ConfigSection) (option : String) : Except GetErr PyFloat :=
  match cs.get option with
  | .error e => .error e
  | .ok raw =>
    match parsePyFloat raw with
    | some f => .ok f
    | none => .error .valueError

/-- `RawConfigParser._boolean_states`: the numeric and switch-like truthy
forms the stock `getboolean` accepts on the lower-cased raw value. -/
def pyBooleanStates (s : String) : Option Bool :=
  if s = "1" ∨ s = "yes" ∨ s = "true" ∨ s = "on" then some true
  else if s = "0" ∨ s = "no" ∨ s = "false" ∨ s = "off" then some false
  else none

/-- The string acceptance of `ConfigSection.getboolean` (config.py 143..158):
first `yes`/`true` and `no`/`false` on the lower-cased, stripped value, then
the stock `SafeConfigParser.getboolean` states on the lower-cased value. -/
def boolCoerce (raw : String) : Option Bool :=
  let value := pyStrip (pyLower raw)
  if value = "yes" ∨ value = "true" then some true
  else if value = "no" ∨ value = "false" then some false
  else pyBooleanStates (pyLower raw)

/-- `ConfigSection.getboolean`, with its string handling factored into
`boolCoerce`.  The AttributeError branch for non-string stored values cannot
arise here because stored values are strings. -/
def ConfigSection.getboolean (cs : ConfigSection) (option : String) : Except GetErr Bool :=
  match cs.get option with
  | .error e => .error e
  | .ok raw =>
    match boolCoerce raw with
    | some b => .ok b
    | none => .error .valueError

/-! ## ConfigDict (config.py lines 206..269) -/

/-- The value a `ConfigDict` lookup can return: whichever typed coercion
succeeded first. -/
inductive ConfigValue
  | int (i : Int)
  | bool (b : Bool)
  | float (f : PyFloat)
  | str (s : String)
deriving DecidableEq, Repr

structure ConfigDict where
  configSection : ConfigSection
deriving DecidableEq, Repr

/-- `ConfigDict._keyset`: lower-cased option keys union lower-cased default
keys. -/
def ConfigDict.keyset (cd : ConfigDict) : List String :=
  ((cd.configSection.optionKeys.map pyLower) ++
    (cd.configSection.defaultKeys.map pyLower)).dedup

/-- `ConfigDict.__contains__`. -/
def ConfigDict.containsKey (cd : ConfigDict) (item : String) : Prop :=
  pyLower item ∈ cd.keyset

instance (cd : ConfigDict) (item : String) : Decidable (cd.containsKey item) := by
  unfold ConfigDict.containsKey; infer_instance

/-- Errors `ConfigDict.__getitem__` can raise. `noOptionError` models a
NoOptionError escaping the suffix loop (it is not among the caught
exception classes); the keyset guard makes it unreachable. -/
inductive CfgErr
  | keyError (k : String)
  | noOptionError (k : String)
  | configError (k : String)
  | interpError (k : String) (e : IErr)
deriving DecidableEq, Repr

/-- The getattr-based `get` + suffix dispatch of
`ConfigDict.__getitem__`: suffix `int`, `boolean`, `float` or the empty
suffix for plain `get`. -/
def getMethod (cs : ConfigSection) (suffix key : String) : Except GetErr ConfigValue :=
  if suffix = "int" then (cs.getint key).map ConfigValue.int
  else if suffix = "boolean" then (cs.getboolean key).map ConfigValue.bool
  else if suffix = "float" then (cs.getfloat key).map ConfigValue.float
  else
    match cs.get key with
    | .ok v => .ok (ConfigValue.str v)
    | .error e => .error e

/-- The `for suffix in (...)` loop of `ConfigDict.__getitem__`: try each
getter in order, continuing past ValueError (and the AttributeError that
cannot arise here), raising DockerConfigError if the tuple is exhausted.
An InterpolationError is not among the caught classes and propagates. -/
def suffixLoop (cs : ConfigSection) (key : String) : List String → Except CfgErr ConfigValue
  | [] => .error (.configError key)
  | sfx :: rest =>
    match getMethod cs sfx key with
    | .ok v => .ok v
    | .error .valueError => suffixLoop cs key rest
    | .error .noOption => .error (.noOptionError key)
    | .error (.interp e) => .error (.interpError key e)

/-- `ConfigDict.__getitem__` (config.py 239..252): lower-case the key, check
the keyset (DockerKeyError on miss), then try the getters with suffixes
`int`, `boolean`, `float`, empty in that order. -/
def ConfigDict.getitem (cd : ConfigDict) (key : String) : Except CfgErr ConfigValue :=
  let k := pyLower key
  if k ∈ cd.keyset then
    suffixLoop cd.configSection k ["int", "boolean", "float", ""]
  else .error (.keyError k)

/-- The typed coercion chain as the spec words it: integer first, then
boolean, then float, then the raw string, returning the first success.  The
boolean step is the same acceptance the code uses (`boolCoerce`). -/
def coerceValue (raw : String) : ConfigValue :=
  match parsePyInt raw with
  | some i => .int i
  | none =>
    match boolCoerce raw with
    | some b => .bool b
    | none =>
      match parsePyFloat raw with
      | some f => .float f
      | none => .str raw

/-! ## Generic helpers -/

instance {ε α : Type} [DecidableEq ε] [DecidableEq α] : DecidableEq (Except ε α)
  | .ok a, .ok b => by
    cases decEq a b with
    | isTrue h => exact isTrue (by rw [h])
    | isFalse h => exact isFalse (by intro hc; cases hc; exact h rfl)
  | .error a, .error b => by
    cases decEq a b with
    | isTrue h => exact isTrue (by rw [h])
    | isFalse h => exact isFalse (by intro hc; cases hc; exact h rfl)
  | .ok _, .error _ => isFalse (by intro hc; cases hc)
  | .error _, .ok _ => isFalse (by intro hc; cases hc)

theorem lookup_isSome_of_mem_keys {α : Type} {l : List (String × α)} {k : String}
    (h : k ∈ l.map Prod.fst) : ∃ v, l.lookup k = some v := by
  induction l with
  | nil => simp at h
  | cons kv rest ih =>
    simp only [List.map_cons, List.mem_cons] at h
    by_cases hk : k = kv.1
    · exact ⟨kv.2, by simp [List.lookup, hk]⟩
    · have hmem : k ∈ rest.map Prod.fst := by
        cases h with
        | inl h => exact absurd h hk
        | inr h => exact h
      obtain ⟨v, hv⟩ := ih hmem
      exact ⟨v, by simpa [List.lookup, beq_false_of_ne hk] using hv⟩

theorem mem_of_lookup_some {α : Type} {l : List (String × α)} {k : String} {v : α}
    (h : l.lookup k = some v) : k ∈ l.map Prod.fst := by
  induction l with
  | nil => simp [List.lookup] at h
  | cons kv rest ih =>
    by_cases hk : k = kv.1
    · simp [hk]
    · have h' : rest.lookup k = some v := by
        simpa [List.lookup, beq_false_of_ne hk] using h
      simp [ih h']

theorem mem_map_of_fixed {l : List String} {f : String → String} {k : String}
    (hf : ∀ x ∈ l, f x = x) : k ∈ l.map f ↔ k ∈ l := by
  constructor
  · rintro h
    obtain ⟨x, hx, hfx⟩ := List.mem_map.mp h
    rw [← hfx]
    rwa [hf x hx]
  · intro h
    exact List.mem_map.mpr ⟨k, h, hf k h⟩

/-! ## Helper lemmas about ConfigDict lookup -/

/-- A key stored anywhere in the section or defaults is its own lower-case
form, under `ConfigSection.WF`. -/
theorem pyLower_fixed_of_mem {cs : ConfigSection} {k : String} (hwf : cs.WF)
    (h : k ∈ cs.opts.map Prod.fst ∨ k ∈ cs.scpDefaults.map Prod.fst) :
    pyLower k = k := by
  cases h with
  | inl h =>
    obtain ⟨kv, hkv, hfst⟩ := List.mem_map.mp h
    rw [← hfst]; exact hwf.1 kv hkv
  | inr h =>
    obtain ⟨kv, hkv, hfst⟩ := List.mem_map.mp h
    rw [← hfst]; exact hwf.2 kv hkv

/-- Membership in `ConfigDict._keyset` coincides with membership among the
stored option or default keys, under `ConfigSection.WF`. -/
theorem mem_keyset_iff {cs : ConfigSection} (hwf : cs.WF) (k : String) :
    k ∈ (ConfigDict.mk cs).keyset ↔
      (k ∈ cs.opts.map Prod.fst ∨ k ∈ cs.scpDefaults.map Prod.fst) := by
  have hopts : ∀ x ∈ cs.opts.map Prod.fst, pyLower x = x := by
    intro x hx
    obtain ⟨kv, hkv, hfst⟩ := List.mem_map.mp hx
    rw [← hfst]; exact hwf.1 kv hkv
  have hdefs : ∀ x ∈ cs.scpDefaults.map Prod.fst, pyLower x = x := by
    intro x hx
    obtain ⟨kv, hkv, hfst⟩ := List.mem_map.mp hx
    rw [← hfst]; exact hwf.2 kv hkv
  have hok : ∀ x ∈ cs.optionKeys, pyLower x = x := by
    intro x hx
    unfold ConfigSection.optionKeys at hx
    rw [List.mem_dedup, List.mem_append] at hx
    cases hx with
    | inl h => exact hopts x h
    | inr h => exact hdefs x h
  unfold ConfigDict.keyset
  rw [List.mem_dedup, List.mem_append,
    mem_map_of_fixed hok, mem_map_of_fixed (by simpa [ConfigSection.defaultKeys] using hdefs)]
  unfold ConfigSection.optionKeys ConfigSection.defaultKeys
  rw [List.mem_dedup, List.mem_append]
  tauto

/-- If a key is stored in the section options, `ConfigSection.rawGet`
returns its own value (the section wins over the defaults). -/
theorem rawGet_own (cs : ConfigSection) (k v : String) (hwf : cs.WF)
    (hl : cs.opts.lookup k = some v) : cs.rawGet k = some v := by
  have hlow : pyLower k = k :=
    pyLower_fixed_of_mem hwf (Or.inl (mem_of_lookup_some hl))
  unfold ConfigSection.rawGet ConfigSection.dMap
  rw [hlow]
  simp [hl]

/-- If a key is absent from the section options but present in the defaults,
`ConfigSection.rawGet` falls back to the defaults value. -/
theorem rawGet_default (cs : ConfigSection) (k v : String) (hwf : cs.WF)
    (hl : cs.opts.lookup k = none) (hd : cs.scpDefaults.lookup k = some v) :
    cs.rawGet k = some v := by
  have hlow : pyLower k = k :=
    pyLower_fixed_of_mem hwf (Or.inr (mem_of_lookup_some hd))
  unfold ConfigSection.rawGet ConfigSection.dMap
  rw [hlow]
  simp [hl, hd]

/-- A present key has a stored raw value. -/
theorem rawGet_cases (cs : ConfigSection) (k : String) (hwf : cs.WF)
    (h : k ∈ cs.opts.map Prod.fst ∨ k ∈ cs.scpDefaults.map Prod.fst) :
    ∃ raw, cs.rawGet k = some raw := by
  have hlow : pyLower k = k := pyLower_fixed_of_mem hwf h
  cases hl : cs.opts.lookup k with
  | some v =>
    refine ⟨v, ?_⟩
    unfold ConfigSection.rawGet ConfigSection.dMap
    rw [hlow]
    simp [hl]
  | none =>
    have hd : k ∈ cs.scpDefaults.map Prod.fst := by
      cases h with
      | inl h =>
        obtain ⟨v, hv⟩ := lookup_isSome_of_mem_keys h
        rw [hv] at hl; cases hl
      | inr h => exact h
    obtain ⟨v, hv⟩ := lookup_isSome_of_mem_keys hd
    refine ⟨v, ?_⟩
    unfold ConfigSection.rawGet ConfigSection.dMap
    rw [hlow]
    simp [hl, hv]

/-- `ConfigSection.get` when interpolation of the raw value succeeds. -/
theorem get_interp_ok (cs : ConfigSection) (k raw out : String)
    (hr : cs.rawGet k = some raw) (hi : interpolate cs.dMap raw = .ok out) :
    cs.get k = .ok out := by
  simp only [ConfigSection.get, hr, hi]

/-- `ConfigSection.get` when interpolation of the raw value fails: the
InterpolationError surfaces. -/
theorem get_interp_err (cs : ConfigSection) (k raw : String) (e : IErr)
    (hr : cs.rawGet k = some raw) (hi : interpolate cs.dMap raw = .error e) :
    cs.get k = .error (.interp e) := by
  simp only [ConfigSection.get, hr, hi]

/-- `ConfigSection.get` on a raw value without `%`: interpolation changes
nothing. -/
theorem get_eval_nopct (cs : ConfigSection) (k raw : String)
    (hr : cs.rawGet k = some raw) (hp : '%' ∉ raw.data) :
    cs.get k = .ok raw :=
  get_interp_ok cs k raw raw hr (interpolate_nopercent cs.dMap raw hp)

/-- The suffix loop of `ConfigDict.__getitem__`, evaluated on a key whose
interpolated value resolves: it returns exactly the first successful
coercion of the chain `int`, `boolean`, `float`, string. -/
theorem suffixLoop_eval (cs : ConfigSection) (k raw : String) (hg : cs.get k = .ok raw) :
    suffixLoop cs k ["int", "boolean", "float", ""] = .ok (coerceValue raw) := by
  have hint : getMethod cs "int" k = (match parsePyInt raw with
      | some i => Except.ok (ConfigValue.int i)
      | none => Except.error GetErr.valueError) := by
    simp only [getMethod, if_pos]
    simp only [ConfigSection.getint, hg]
    cases hpi : parsePyInt raw <;> simp [hpi, Except.map]
  have hbool : getMethod cs "boolean" k = (match boolCoerce raw with
      | some b => Except.ok (ConfigValue.bool b)
      | none => Except.error GetErr.valueError) := by
    simp only [getMethod, if_neg (by decide : ¬ ("boolean" : String) = "int"), if_pos]
    simp only [ConfigSection.getboolean, hg]
    cases hbc : boolCoerce raw <;> simp [hbc, Except.map]
  have hfloat : getMethod cs "float" k = (match parsePyFloat raw with
      | some f => Except.ok (ConfigValue.float f)
      | none => Except.error GetErr.valueError) := by
    simp only [getMethod, if_neg (by decide : ¬ ("float" : String) = "int"),
      if_neg (by decide : ¬ ("float" : String) = "boolean"), if_pos]
    simp only [ConfigSection.getfloat, hg]
    cases hpf : parsePyFloat raw <;> simp [hpf, Except.map]
  have hstr : getMethod cs "" k = Except.ok (ConfigValue.str raw) := by
    simp only [getMethod, if_neg (by decide : ¬ ("" : String) = "int"),
      if_neg (by decide : ¬ ("" : String) = "boolean"),
      if_neg (by decide : ¬ ("" : String) = "float")]
    simp only [hg]
  unfold coerceValue
  cases hpi : parsePyInt raw with
  | some i => simp only [suffixLoop, hint, hpi]
  | none =>
    cases hbc : boolCoerce raw with
    | some b => simp only [suffixLoop, hint, hbool, hpi, hbc]
    | none =>
      cases hpf : parsePyFloat raw with
      | some f => simp only [suffixLoop, hint, hbool, hfloat, hpi, hbc, hpf]
      | none => simp only [suffixLoop, hint, hbool, hfloat, hstr, hpi, hbc, hpf]

/-- `ConfigDict.__getitem__` on a contained key whose value interpolates
returns the coercion chain applied to the interpolated value. -/
theorem getitem_coerce (cs : ConfigSection) (key raw : String)
    (hmem : pyLower key ∈ (ConfigDict.mk cs).keyset)
    (hg : cs.get (pyLower key) = .ok raw) :
    (ConfigDict.mk cs).getitem key = .ok (coerceValue raw) := by
  unfold ConfigDict.getitem
  rw [if_pos hmem]
  exact suffixLoop_eval cs (pyLower key) raw hg

/-- The suffix loop when interpolation fails: the very first getter raises
the InterpolationError, which is not a ValueError and propagates. -/
theorem suffixLoop_interp (cs : ConfigSection) (k : String) (e : IErr)
    (hg : cs.get k = .error (.interp e)) :
    suffixLoop cs k ["int", "boolean", "float", ""] = .error (.interpError k e) := by
  have hint : getMethod cs "int" k = .error (.interp e) := by
    simp only [getMethod, if_pos]
    simp [ConfigSection.getint, hg, Except.map]
  simp only [suffixLoop, hint]

/-- `ConfigDict.__getitem__` on a contained key whose value fails to
interpolate raises the uncaught InterpolationError. -/
theorem getitem_interp (cs : ConfigSection) (key : String) (e : IErr)
    (hmem : pyLower key ∈ (ConfigDict.mk cs).keyset)
    (hg : cs.get (pyLower key) = .error (.interp e)) :
    (ConfigDict.mk cs).getitem key = .error (.interpError (pyLower key) e) := by
  unfold ConfigDict.getitem
  rw [if_pos hmem]
  exact suffixLoop_interp cs (pyLower key) e hg

/-- `ConfigDict.__getitem__` evaluated on an own key whose stored value is
free of `%`: interpolation is the identity and the coercion chain applies
to the stored value itself. -/
theorem getitem_eval_own (cs : ConfigSection) (k v : String) (hwf : cs.WF)
    (hl : cs.opts.lookup k = some v) (hp : '%' ∉ v.data) :
    (ConfigDict.mk cs).getitem k = .ok (coerceValue v) := by
  have hmm : k ∈ cs.opts.map Prod.fst ∨ k ∈ cs.scpDefaults.map Prod.fst :=
    Or.inl (mem_of_lookup_some hl)
  have hlow : pyLower k = k := pyLower_fixed_of_mem hwf hmm
  have hks : pyLower k ∈ (ConfigDict.mk cs).keyset := by
    rw [hlow]; exact (mem_keyset_iff hwf k).mpr hmm
  exact getitem_coerce cs k v hks
    (by rw [hlow]; exact get_eval_nopct cs k v (rawGet_own cs k v hwf hl) hp)

/-- Interpolating a value that ends in a bare `%` is an
InterpolationSyntaxError, whatever the variable mapping. -/
theorem interpolate_pct (mp : String → Option String) :
    interpolate mp "50%" = .error .syntaxError := by
  have hd : ("50%").data = ['5', '0', '%'] := by decide
  unfold interpolate
  rw [hd]
  simp [interpChars, Except.map]

/-! ## Claim C2 and C3: typed lookup coercion -/

/-- A section whose key `x` stores the string `"0"`. -/
def csZero : ConfigSection := ⟨"demo", [], [("x", "0")]⟩

/-- Sections exercising the four coercion outcomes of the claims: values
`"0"`, `"42"`, `"3.14"` and `"hello"`. -/
def csDemo : ConfigSection :=
  ⟨"demo", [], [("a", "0"), ("b", "42"), ("c", "3.14"), ("d", "hello")]⟩

/-- C2 counterexample: `ConfigDict` item lookup of a key whose stored value
is the string `"0"` returns the integer 0, not the boolean false — the
`int` suffix is tried before `boolean` in `ConfigDict.__getitem__`, exactly
so that `"0"` is not gobbled by the boolean coercion. -/
theorem C2_counterexample :
    (ConfigDict.mk csZero).getitem "x" = .ok (.int 0) ∧
    (ConfigDict.mk csZero).getitem "x" ≠ .ok (.bool false) := by
  have h := getitem_eval_own csZero "x" "0" (by decide) (by decide) (by decide)
  rw [h]
  exact ⟨by decide, by decide⟩

/-- C2 (amended): in `ConfigDict` item lookup, a stored `"0"` returns the
integer 0 (not the boolean false), `"42"` returns the integer 42, `"3.14"`
returns the float 3.14 (the exact decimal 314/100), and `"hello"` returns
the string `"hello"`; the boolean-aware lookup `ConfigSection.getboolean`
on the value `"0"` does return false. -/
theorem C2_amended_typed_lookup_values :
    (ConfigDict.mk csDemo).getitem "a" = .ok (.int 0) ∧
    (ConfigDict.mk csDemo).getitem "b" = .ok (.int 42) ∧
    (ConfigDict.mk csDemo).getitem "c" = .ok (.float (.finite 314 100)) ∧
    (ConfigDict.mk csDemo).getitem "d" = .ok (.str "hello") ∧
    csDemo.getboolean "a" = .ok false := by
  have ha := getitem_eval_own csDemo "a" "0" (by decide) (by decide) (by decide)
  have hb := getitem_eval_own csDemo "b" "42" (by decide) (by decide) (by decide)
  have hc := getitem_eval_own csDemo "c" "3.14" (by decide) (by decide) (by decide)
  have hd := getitem_eval_own csDemo "d" "hello" (by decide) (by decide) (by decide)
  have hg : csDemo.get "a" = .ok "0" :=
    get_eval_nopct csDemo "a" "0" (by decide) (by decide)
  have hbool : csDemo.getboolean "a" = .ok false := by
    simp only [ConfigSection.getboolean, hg]
    decide
  exact ⟨by rw [ha]; decide, by rw [hb]; decide, by rw [hc]; decide,
    by rw [hd]; decide, hbool⟩

/-- Section whose key `x` stores `"50%"`: a stray `%` the interpolation
step rejects. -/
def csPct : ConfigSection := ⟨"demo", [], [("x", "50%")]⟩

/-- C3 counterexample: lookup of a key whose stored value is `"50%"` does
not return any coercion of the stored string: `SafeConfigParser.get`
%-interpolates the value first, the trailing bare `%` raises
InterpolationSyntaxError, and that is not a ValueError, so it escapes the
suffix loop of `ConfigDict.__getitem__` uncaught. -/
theorem C3_counterexample :
    (ConfigDict.mk csPct).getitem "x" = .error (.interpError "x" .syntaxError) ∧
    ∀ v, (ConfigDict.mk csPct).getitem "x" ≠ .ok v := by
  have hg : csPct.get "x" = .error (.interp .syntaxError) :=
    get_interp_err csPct "x" "50%" .syntaxError (by decide) (interpolate_pct csPct.dMap)
  have hpl : pyLower "x" = "x" := by decide
  have h := getitem_interp csPct "x" .syntaxError (by rw [hpl]; decide) (by rwa [hpl])
  rw [hpl] at h
  rw [h]
  exact ⟨rfl, fun v hc => by cases hc⟩

/-- C3 (amended): for every key present among the own options of a section
or in its defaults, `ConfigDict` item lookup first %-interpolates the
stored raw value against the merged defaults-plus-section mapping; when
interpolation succeeds the lookup returns the first success of the typed
coercion chain in the fixed priority order integer, then boolean, then
float, then raw string (`coerceValue`) applied to the interpolated value,
and when interpolation fails the lookup raises that InterpolationError
uncaught (it is not a ValueError, so the suffix loop does not swallow it);
the boolean step accepts `yes`/`true`/`no`/`false` case-insensitively in
addition to the numeric truthy forms. -/
theorem C3_amended_coercion_after_interpolation :
    ∀ (cs : ConfigSection) (k : String), cs.WF →
    (k ∈ cs.opts.map Prod.fst ∨ k ∈ cs.scpDefaults.map Prod.fst) →
    (∃ raw, cs.rawGet k = some raw ∧
      (∀ out, interpolate cs.dMap raw = .ok out →
        (ConfigDict.mk cs).getitem k = .ok (coerceValue out)) ∧
      (∀ e, interpolate cs.dMap raw = .error e →
        (ConfigDict.mk cs).getitem k = .error (.interpError k e))) ∧
    (boolCoerce "yEs" = some true ∧ boolCoerce "TRUE" = some true ∧
     boolCoerce "No" = some false ∧ boolCoerce "fAlSe" = some false ∧
     boolCoerce "1" = some true ∧ boolCoerce "0" = some false) := by
  intro cs k hwf hmem
  have hlow : pyLower k = k := pyLower_fixed_of_mem hwf hmem
  have hks : pyLower k ∈ (ConfigDict.mk cs).keyset := by
    rw [hlow]
    exact (mem_keyset_iff hwf k).mpr hmem
  obtain ⟨raw, hr⟩ := rawGet_cases cs k hwf hmem
  refine ⟨⟨raw, hr, ?_, ?_⟩, by decide, by decide, by decide, by decide, by decide, by decide⟩
  · intro out hiok
    exact getitem_coerce cs k out hks
      (by rw [hlow]; exact get_interp_ok cs k raw out hr hiok)
  · intro e hierr
    have h := getitem_interp cs k e hks
      (by rw [hlow]; exact get_interp_err cs k raw e hr hierr)
    rwa [hlow] at h

/-- Section for the C3 witness: the default `dk` holds `"7"`, the own key
`k` holds a plain string every numeric coercion rejects, and the own key
`ik` holds the reference `%(dk)s`. -/
def csWitC3 : ConfigSection :=
  ⟨"sect", [("dk", "7")], [("k", "hello"), ("ik", "%(dk)s")]⟩

/-- The reference `%(dk)s` interpolates to the default value `"7"` under
the merged mapping of `csWitC3`. -/
theorem csWitC3_interp : interpolate csWitC3.dMap "%(dk)s" = .ok "7" := by
  have hdata : ("%(dk)s").data = ['%', '(', 'd', 'k', ')', 's'] := by decide
  have hic : interpChars csWitC3.dMap 9 ['%', '(', 'd', 'k', ')', 's'] = .ok ['7'] := by
    simp +decide [interpChars, ConfigSection.dMap, csWitC3, pyLower, lcChar,
      Except.map, List.lookup]
    split
    · rename_i after heq
      have hafter : after = [] := by
        have hev : List.dropWhile (fun c => decide (¬ c = ')')) ['d', 'k', ')', 's'] =
            [')', 's'] := by decide
        rw [hev] at heq
        injection heq with h1 h2
        injection h2 with h3 h4
        exact h4.symm
      rw [hafter]
      simp [interpChars]
    · rename_i hno
      have hev : List.dropWhile (fun c => decide (¬ c = ')')) ['d', 'k', ')', 's'] =
          [')', 's'] := by decide
      exact absurd hev (fun hc => hno [] hc)
  unfold interpolate
  rw [hdata, hic]
  rfl

/-- C3 witness: the amended theorem applied at a concrete section: the
plain value `"hello"` reads back as the string, and the reference
`%(dk)s` reads back as the integer coercion of the substituted default
`"7"`. -/
theorem C3_amended_coercion_after_interpolation_witness :
    csWitC3.WF ∧
    (ConfigDict.mk csWitC3).getitem "k" = .ok (.str "hello") ∧
    (ConfigDict.mk csWitC3).getitem "ik" = .ok (.int 7) := by
  refine ⟨by decide, ?_, ?_⟩
  · obtain ⟨⟨raw, hr, hok, _⟩, _⟩ :=
      C3_amended_coercion_after_interpolation csWitC3 "k" (by decide) (Or.inl (by decide))
    have he : csWitC3.rawGet "k" = some "hello" := by decide
    rw [hr] at he
    rw [Option.some.inj he] at hok
    have h := hok "hello" (interpolate_nopercent csWitC3.dMap "hello" (by decide))
    rw [h]
    decide
  · obtain ⟨⟨raw, hr, hok, _⟩, _⟩ :=
      C3_amended_coercion_after_interpolation csWitC3 "ik" (by decide) (Or.inl (by decide))
    have he : csWitC3.rawGet "ik" = some "%(dk)s" := by decide
    rw [hr] at he
    rw [Option.some.inj he] at hok
    have h := hok "7" csWitC3_interp
    rw [h]
    decide

/-! ## Claim C6: effective key set and read-back -/

/-- Section for the C6 counterexample: the defaults define `j = "50%"` and
the section has zero own keys. -/
def csPctD : ConfigSection := ⟨"demo", [("j", "50%")], []⟩

/-- C6 counterexample: a defaults-only key whose value holds a stray `%`
is in the effective key set of every section, yet reading it back raises
the uncaught InterpolationSyntaxError instead of returning the defaults
value — the read-back half of the claim fails for it. -/
theorem C6_counterexample :
    "j" ∈ (ConfigDict.mk csPctD).keyset ∧
    (ConfigDict.mk csPctD).getitem "j" = .error (.interpError "j" .syntaxError) ∧
    ∀ v, (ConfigDict.mk csPctD).getitem "j" ≠ .ok v := by
  have hg : csPctD.get "j" = .error (.interp .syntaxError) :=
    get_interp_err csPctD "j" "50%" .syntaxError (by decide) (interpolate_pct csPctD.dMap)
  have hpl : pyLower "j" = "j" := by decide
  have h := getitem_interp csPctD "j" .syntaxError (by rw [hpl]; decide) (by rwa [hpl])
  rw [hpl] at h
  rw [h]
  exact ⟨by decide, rfl, fun v hc => by cases hc⟩

/-- C6 (amended): for every section, the effective key set of its
`ConfigDict` is the union of the own option keys of the section and the
defaults keys.  Reading a key back goes through %-interpolation of the
stored value: when interpolation succeeds, a key stored in the own options
reads back the typed coercion of the interpolated own value (the section
wins), and a key defined only in the defaults reads back the typed
coercion of the interpolated defaults value; when interpolation fails, the
read-back raises that InterpolationError uncaught in either case. -/
theorem C6_amended_keyset_interpolated_readback :
    ∀ (cs : ConfigSection), cs.WF →
    (∀ k, k ∈ (ConfigDict.mk cs).keyset ↔
        (k ∈ cs.opts.map Prod.fst ∨ k ∈ cs.scpDefaults.map Prod.fst)) ∧
    (∀ k v, cs.opts.lookup k = some v →
        (∀ out, interpolate cs.dMap v = .ok out →
          (ConfigDict.mk cs).getitem k = .ok (coerceValue out)) ∧
        (∀ e, interpolate cs.dMap v = .error e →
          (ConfigDict.mk cs).getitem k = .error (.interpError k e))) ∧
    (∀ k v, cs.opts.lookup k = none → cs.scpDefaults.lookup k = some v →
        (∀ out, interpolate cs.dMap v = .ok out →
          (ConfigDict.mk cs).getitem k = .ok (coerceValue out)) ∧
        (∀ e, interpolate cs.dMap v = .error e →
          (ConfigDict.mk cs).getitem k = .error (.interpError k e))) := by
  intro cs hwf
  refine ⟨fun k => mem_keyset_iff hwf k, ?_, ?_⟩
  · intro k v hl
    have hmm : k ∈ cs.opts.map Prod.fst ∨ k ∈ cs.scpDefaults.map Prod.fst :=
      Or.inl (mem_of_lookup_some hl)
    have hlow : pyLower k = k := pyLower_fixed_of_mem hwf hmm
    have hks : pyLower k ∈ (ConfigDict.mk cs).keyset := by
      rw [hlow]; exact (mem_keyset_iff hwf k).mpr hmm
    have hr : cs.rawGet k = some v := rawGet_own cs k v hwf hl
    constructor
    · intro out hiok
      exact getitem_coerce cs k out hks
        (by rw [hlow]; exact get_interp_ok cs k v out hr hiok)
    · intro e hie
      have h := getitem_interp cs k e hks
        (by rw [hlow]; exact get_interp_err cs k v e hr hie)
      rwa [hlow] at h
  · intro k v hl hd
    have hmm : k ∈ cs.opts.map Prod.fst ∨ k ∈ cs.scpDefaults.map Prod.fst :=
      Or.inr (mem_of_lookup_some hd)
    have hlow : pyLower k = k := pyLower_fixed_of_mem hwf hmm
    have hks : pyLower k ∈ (ConfigDict.mk cs).keyset := by
      rw [hlow]; exact (mem_keyset_iff hwf k).mpr hmm
    have hr : cs.rawGet k = some v := rawGet_default cs k v hwf hl hd
    constructor
    · intro out hiok
      exact getitem_coerce cs k out hks
        (by rw [hlow]; exact get_interp_ok cs k v out hr hiok)
    · intro e hie
      have h := getitem_interp cs k e hks
        (by rw [hlow]; exact get_interp_err cs k v e hr hie)
      rwa [hlow] at h

/-- Section for the C6 witness: defaults define `k` and `j`, the section
itself overrides only `k`; no value holds a `%`. -/
def csWitC6 : ConfigSection :=
  ⟨"sect", [("k", "defval"), ("j", "justdef")], [("k", "ownval")]⟩

/-- C6 witness: at a concrete section, the overridden key reads back the
own value, the defaults-only key reads back the defaults value and is in
the effective key set. -/
theorem C6_amended_keyset_interpolated_readback_witness :
    csWitC6.WF ∧
    (ConfigDict.mk csWitC6).getitem "k" = .ok (.str "ownval") ∧
    (ConfigDict.mk csWitC6).getitem "j" = .ok (.str "justdef") ∧
    "j" ∈ (ConfigDict.mk csWitC6).keyset := by
  have h := C6_amended_keyset_interpolated_readback csWitC6 (by decide)
  refine ⟨by decide, ?_, ?_, ?_⟩
  · have hx := (h.2.1 "k" "ownval" (by decide)).1 "ownval"
      (interpolate_nopercent csWitC6.dMap "ownval" (by decide))
    rw [hx]; decide
  · have hx := (h.2.2 "j" "justdef" (by decide) (by decide)).1 "justdef"
      (interpolate_nopercent csWitC6.dMap "justdef" (by decide))
    rw [hx]; decide
  · exact (h.1 "j").mpr (Or.inr (by decide))

/-! ## Claim C8: sub-subtest config formation (subtest.py 332..359)

`SubSubtest.make_subsubtest_config` folds the items of the own
`ConfigDict` of the sub-subtest (which merge the globals: defaults keys are
reported even when the ini section never wrote them) into a copy of the
parent config.
`parent_config[key]` on a missing key is a Python KeyError, modelled as the
`none` result of `subVal`. -/

/-- Python dictionary assignment on an association list: replace in place
when the key is present, append otherwise. -/
def setEntry {α : Type} : List (String × α) → String → α → List (String × α)
  | [], k, v => [(k, v)]
  | kv :: rest, k, v =>
    if kv.1 = k then (k, v) :: rest else kv :: setEntry rest k v

theorem lookup_setEntry {α : Type} (l : List (String × α)) (k k' : String) (v : α) :
    (setEntry l k v).lookup k' = if k' = k then some v else l.lookup k' := by
  induction l with
  | nil =>
    by_cases h : k' = k
    · simp [setEntry, List.lookup, h]
    · simp [setEntry, List.lookup, h, beq_false_of_ne h]
  | cons kv rest ih =>
    by_cases hkv : kv.1 = k
    · by_cases h : k' = k
      · simp [setEntry, hkv, List.lookup, h]
      · have hne : ¬ k' = kv.1 := by rw [hkv]; exact h
        simp [setEntry, hkv, List.lookup, h, beq_false_of_ne h, beq_false_of_ne hne, hne]
    · by_cases h : k' = kv.1
      · have hne : ¬ k' = k := by rw [h]; exact fun hc => hkv (h ▸ hc)
        simp [setEntry, hkv, List.lookup, h, hne]
      · simp [setEntry, hkv, List.lookup, beq_false_of_ne h, ih]

/-- The value `make_subsubtest_config` assigns for one item `(k, v)` of the
`ConfigDict` of the sub-subtest section (subtest.py 339..354): keys
outside the global defaults take the section value; for a defaults key
whose section value equals the default, the parent value is inherited;
otherwise the section value wins.  `none` models the KeyError on
`parent_config[key]`. -/
def subVal (defaults parent : List (String × String)) (k v : String) : Option String :=
  match defaults.lookup k with
  | none => some v
  | some defVal =>
    match parent.lookup k with
    | none => none
    | some parVal =>
      some (if v = defVal then (if parVal ≠ defVal then parVal else defVal) else v)

/-- `SubSubtest.make_subsubtest_config`: starting from the copy of the
parent config, assign every item of the merged item list of the
sub-subtest section through `subVal`. -/
def make_subsubtest_config (defaults parent subItems : List (String × String)) :
    Option (List (String × String)) :=
  subItems.foldlM
    (fun cfg kv => (subVal defaults parent kv.1 kv.2).map (setEntry cfg kv.1)) parent

/-- A key not named by the folded items keeps its accumulator value. -/
theorem make_fold_untouched (defaults parent : List (String × String)) :
    ∀ (subItems : List (String × String)) (cfg0 cfg : List (String × String)) (k : String),
    k ∉ subItems.map Prod.fst →
    subItems.foldlM
      (fun cfg kv => (subVal defaults parent kv.1 kv.2).map (setEntry cfg kv.1)) cfg0 =
      some cfg →
    cfg.lookup k = cfg0.lookup k := by
  intro subItems
  induction subItems with
  | nil =>
    intro cfg0 cfg k _ hf
    cases hf
    rfl
  | cons kv rest ih =>
    intro cfg0 cfg k hk hf
    simp only [List.map_cons, List.mem_cons, not_or] at hk
    rw [List.foldlM_cons] at hf
    cases hs : subVal defaults parent kv.1 kv.2 with
    | none => rw [hs] at hf; cases hf
    | some w =>
      rw [hs] at hf
      have hf' : rest.foldlM
          (fun cfg kv => (subVal defaults parent kv.1 kv.2).map (setEntry cfg kv.1))
          (setEntry cfg0 kv.1 w) = some cfg := hf
      have := ih (setEntry cfg0 kv.1 w) cfg k hk.2 hf'
      rw [this, lookup_setEntry, if_neg hk.1]

/-- Each folded item ends up mapped to its `subVal` result, when the item
keys are distinct. -/
theorem make_fold_lookup (defaults parent : List (String × String)) :
    ∀ (subItems : List (String × String)) (cfg0 cfg : List (String × String)),
    (subItems.map Prod.fst).Nodup →
    subItems.foldlM
      (fun cfg kv => (subVal defaults parent kv.1 kv.2).map (setEntry cfg kv.1)) cfg0 =
      some cfg →
    ∀ k v, (k, v) ∈ subItems →
      ∃ w, subVal defaults parent k v = some w ∧ cfg.lookup k = some w := by
  intro subItems
  induction subItems with
  | nil =>
    intro cfg0 cfg _ _ k v hkv
    simp at hkv
  | cons kv0 rest ih =>
    intro cfg0 cfg hnd hf k v hkv
    rw [List.foldlM_cons] at hf
    cases hs : subVal defaults parent kv0.1 kv0.2 with
    | none => rw [hs] at hf; cases hf
    | some w0 =>
      rw [hs] at hf
      have hf' : rest.foldlM
          (fun cfg kv => (subVal defaults parent kv.1 kv.2).map (setEntry cfg kv.1))
          (setEntry cfg0 kv0.1 w0) = some cfg := hf
      simp only [List.map_cons, List.nodup_cons] at hnd
      rcases List.mem_cons.mp hkv with heq | hrest
      · have hk0 : k = kv0.1 := by rw [← heq]
        have hv0 : v = kv0.2 := by rw [← heq]
        refine ⟨w0, by rw [hk0, hv0]; exact hs, ?_⟩
        have hnot : k ∉ rest.map Prod.fst := by rw [hk0]; exact hnd.1
        have := make_fold_untouched defaults parent rest (setEntry cfg0 kv0.1 w0) cfg k hnot hf'
        rw [this, lookup_setEntry, if_pos hk0]
      · exact ih (setEntry cfg0 kv0.1 w0) cfg hnd.2 hf' k v hrest

/-- C8 counterexample: with global default `k = d`, parent override `k = p`
and the sub-subtest section explicitly writing `k = d` (its own value), the
resulting config maps `k` to the parent value `p`, not to the own value
`d` of the section — the own section value does not override here. -/
theorem C8_counterexample :
    make_subsubtest_config [("k", "d")] [("k", "p")] [("k", "d")] = some [("k", "p")] ∧
    ("k", "d") ∈ [("k", "d")] ∧ ("p" : String) ≠ "d" := by
  refine ⟨by decide, by decide, by decide⟩

/-- C8 (amended): every key of the sub-subtest section maps to the
own value of the section, except a key that is also a global defaults key
whose section value equals the default: that key inherits the parent value
(since an explicit default is indistinguishable from an unset key in the
merged item list). -/
theorem C8_amended_section_overrides :
    ∀ (defaults parent subItems cfg : List (String × String)),
    (subItems.map Prod.fst).Nodup →
    make_subsubtest_config defaults parent subItems = some cfg →
    ∀ k v, (k, v) ∈ subItems →
      (defaults.lookup k = none → cfg.lookup k = some v) ∧
      (∀ d, defaults.lookup k = some d → v ≠ d → cfg.lookup k = some v) ∧
      (∀ d p, defaults.lookup k = some d → parent.lookup k = some p → v = d →
        cfg.lookup k = some (if p ≠ d then p else d)) := by
  intro defaults parent subItems cfg hnd hmk k v hkv
  obtain ⟨w, hsv, hlk⟩ := make_fold_lookup defaults parent subItems parent cfg hnd hmk k v hkv
  refine ⟨?_, ?_, ?_⟩
  · intro hdn
    simp only [subVal, hdn] at hsv
    rw [hlk, ← Option.some.inj hsv]
  · intro d hdd hne
    cases hp : parent.lookup k with
    | none => simp [subVal, hdd, hp] at hsv
    | some p =>
      simp only [subVal, hdd, hp, if_neg hne] at hsv
      rw [hlk, ← Option.some.inj hsv]
  · intro d p hdd hpp heq
    simp only [subVal, hdd, hpp, if_pos heq] at hsv
    rw [hlk, ← Option.some.inj hsv]

/-- C8 witness: with default `k = d`, parent `k = p`, section value `x`
different from the default, the own section value wins. -/
theorem C8_amended_section_overrides_witness :
    make_subsubtest_config [("k", "d")] [("k", "p")] [("k", "x")] = some [("k", "x")] ∧
    List.lookup "k" [("k", "x")] = some "x" := by
  have hmk : make_subsubtest_config [("k", "d")] [("k", "p")] [("k", "x")] =
      some [("k", "x")] := by decide
  have h := C8_amended_section_overrides [("k", "d")] [("k", "p")] [("k", "x")]
    [("k", "x")] (by decide) hmk "k" "x" (by decide)
  exact ⟨hmk, h.2.1 "d" (by decide) (by decide)⟩

/-! ## Sub-subtest orchestration (subtest.py 425..714)

A sub-subtest's behaviour is abstracted by what each of its lifecycle
methods does when called: return normally or raise an exception.  The
exception taxonomy follows the handlers in the source: `AutotestError`
subclasses (DockerTestFail, DockerTestNAError, TestError, ...) versus any
other exception. -/

/-- The exceptions the orchestration code distinguishes.  `testNA`,
`testFail`, `testErr` and `autotestOther` are `AutotestError` subclasses;
`pyOther` is any non-autotest exception. -/
inductive Exc
  | testNA (msg : String)
  | testFail (msg : String)
  | testErr (msg : String)
  | autotestOther (msg : String)
  | pyOther (msg : String)
deriving DecidableEq, Repr

/-- Whether `except AutotestError` catches the exception. -/
def Exc.isAutotest : Exc → Bool
  | .testNA _ | .testFail _ | .testErr _ | .autotestOther _ => true
  | .pyOther _ => false

/-- Outcome of calling one lifecycle method of a sub-subtest. -/
inductive StageRes
  | ok
  | raise (e : Exc)
deriving DecidableEq, Repr

/-- Outcome of `new_subsubtest` for one name: an instance, `None`
(class not found, or DockerSubSubtestNAError from the constructor, both
logged and skipped), or an uncaught constructor exception. -/
inductive LoadRes
  | loaded
  | skipped
  | raise (e : Exc)
deriving DecidableEq, Repr

/-- One sub-subtest as the orchestrator sees it: its name and what each of
its lifecycle methods does when invoked. -/
structure SubUnit where
  name : String
  load : LoadRes
  initRes : StageRes
  runRes : StageRes
  postRes : StageRes
  cleanRes : StageRes
deriving DecidableEq, Repr

/-- Observable events of an orchestration run, in order: `new_subsubtest`
called for a name, instance recorded in `start_subsubtests`, and each
lifecycle method invoked. -/
inductive Event
  | load (n : String)
  | start (n : String)
  | initCall (n : String)
  | runCall (n : String)
  | postCall (n : String)
  | cleanupCall (n : String)
deriving DecidableEq, Repr

/-- `SubSubtestCaller.try_all_stages` together with
`call_subsubtest_method` (subtest.py 478..506, 567..577): invoke
`initialize`, `run_once`, `postprocess` in order, stopping at the first
raise.  Returns the method-call events, whether the name joins
`final_subsubtests`, and the exception that propagates out (an
`AutotestError` is logged and swallowed; any other exception re-raises). -/
def tryAllStages (u : SubUnit) : List Event × Bool × Option Exc :=
  let stages : List Event × Option Exc :=
    match u.initRes with
    | .raise e => ([Event.initCall u.name], some e)
    | .ok =>
      match u.runRes with
      | .raise e => ([Event.initCall u.name, Event.runCall u.name], some e)
      | .ok =>
        match u.postRes with
        | .raise e =>
          ([Event.initCall u.name, Event.runCall u.name, Event.postCall u.name], some e)
        | .ok =>
          ([Event.initCall u.name, Event.runCall u.name, Event.postCall u.name], none)
  match stages.2 with
  | none => (stages.1, true, none)
  | some e => (stages.1, false, if e.isAutotest then none else some e)

/-- What escapes `run_all_stages` for one loaded instance. -/
inductive UnitOutcome
  | done
  | stageErr (e : Exc)
  | cleanupErr (e : Exc)
deriving DecidableEq, Repr

/-- `SubSubtestCaller.run_all_stages` for a loaded instance (subtest.py
508..536): record the instance in `start_subsubtests`, run the try-block,
and in the `finally` always call `cleanup()`; a cleanup exception is
re-raised as a TestError (superseding any in-flight stage exception). -/
def runAllStages (u : SubUnit) : List Event × Bool × UnitOutcome :=
  let (evs, succ, prop) := tryAllStages u
  let trace := Event.start u.name :: evs ++ [Event.cleanupCall u.name]
  match u.cleanRes with
  | .raise d =>
    (trace, succ, .cleanupErr (.testErr ("Sub-subtest " ++ u.name ++ " cleanup failures: "
      ++ reprStr d)))
  | .ok =>
    (trace, succ,
      match prop with
      | some e => .stageErr e
      | none => .done)

/-- How a whole sequential run ends: normally, or aborted by an uncaught
exception attributed to the named sub-subtest. -/
inductive RunOutcome
  | done
  | loadErr (n : String) (e : Exc)
  | stageErr (n : String) (e : Exc)
  | cleanupErr (n : String) (e : Exc)
deriving DecidableEq, Repr

/-- The orchestrator state the pass/fail comparison reads:
`start_subsubtests` keys and `final_subsubtests`, in insertion order. -/
structure CallerSt where
  startNames : List String
  finalNames : List String
deriving DecidableEq, Repr

/-- The loop body of `SubSubtestCaller.run_once` (subtest.py 538..549):
for each name in order, `new_subsubtest` then `run_all_stages`; a `None`
instance only logs a warning; an uncaught exception aborts the loop. -/
def runUnits : List SubUnit → CallerSt → List Event × CallerSt × RunOutcome
  | [], st => ([], st, .done)
  | u :: rest, st =>
    match u.load with
    | .raise e => ([Event.load u.name], st, .loadErr u.name e)
    | .skipped =>
      let (evs, st', oc) := runUnits rest st
      (Event.load u.name :: evs, st', oc)
    | .loaded =>
      let (evs, succ, uoc) := runAllStages u
      let st' : CallerSt :=
        ⟨st.startNames ++ [u.name],
         if succ then st.finalNames ++ [u.name] else st.finalNames⟩
      match uoc with
      | .done =>
        let (evs2, st2, oc) := runUnits rest st'
        (Event.load u.name :: evs ++ evs2, st2, oc)
      | .stageErr e => (Event.load u.name :: evs, st', .stageErr u.name e)
      | .cleanupErr e => (Event.load u.name :: evs, st', .cleanupErr u.name e)

/-- `SubSubtestCaller.postprocess` (subtest.py 551..565): compute
`started − completed`; raise DockerTestFail naming that set when nonempty.
The message formatting is abstracted: the raised failure carries the set of
failed names. -/
def callerPostproc (started finals : Finset String) : Option (Finset String) :=
  let failed := started \ finals
  if failed = ∅ then none else some failed

/-- `SubSubtestCaller.initialize` (subtest.py 466..476): DockerTestNAError
when the `subsubtests` value is falsy (the empty string), otherwise split
the stripped value on commas. -/
def splitOnChar (c : Char) : List Char → List (List Char)
  | [] => [[]]
  | x :: xs =>
    let r := splitOnChar c xs
    if x = c then [] :: r
    else
      match r with
      | [] => [[x]]
      | h :: t => (x :: h) :: t

/-- Python `s.split(sep)` for a one-character separator. -/
def pySplitSep (c : Char) (s : String) : List String :=
  (splitOnChar c s.data).map List.asString

/-- `SubSubtestCaller.initialize`, returning the `subsubtest_names` list or
the raised exception. -/
def callerInit (subsubtestsVal : String) : Except Exc (List String) :=
  if subsubtestsVal = "" then
    .error (.testNA "No subsubtests enabled in configuration.")
  else .ok (pySplitSep ',' (pyStrip subsubtestsVal))

/-- A full `SubSubtestCaller` pass: `initialize` then, only on success, the
`run_once` loop over the named units.  An `initialize` exception aborts
before any sub-subtest is instantiated or any stage runs. -/
def callerFullRun (subsubtestsVal : String) (lookupUnit : String → SubUnit) :
    Except Exc (List Event × CallerSt × RunOutcome) :=
  (callerInit subsubtestsVal).map
    (fun names => runUnits (names.map lookupUnit) ⟨[], []⟩)

/-! ## Claims C1, C4, C10: sequential orchestration; C7: stage-batched variant -/

/-- Number of `cleanup()` invocations of the named sub-subtest in a trace. -/
def cleanupCount (n : String) : List Event → Nat
  | [] => 0
  | ev :: l => (if ev = Event.cleanupCall n then 1 else 0) + cleanupCount n l

/-- Number of occurrences of a name in a list of names. -/
def nameCount (n : String) : List String → Nat
  | [] => 0
  | m :: l => (if m = n then 1 else 0) + nameCount n l

theorem cleanupCount_append (n : String) (l1 l2 : List Event) :
    cleanupCount n (l1 ++ l2) = cleanupCount n l1 + cleanupCount n l2 := by
  induction l1 with
  | nil => simp [cleanupCount]
  | cons ev l ih => simp [cleanupCount, ih]; ring

theorem nameCount_eq_zero (n : String) (l : List String) (h : n ∉ l) :
    nameCount n l = 0 := by
  induction l with
  | nil => rfl
  | cons m rest ih =>
    simp only [List.mem_cons, not_or] at h
    have hm : ¬ m = n := fun hc => h.1 hc.symm
    simp [nameCount, hm, ih h.2]

theorem nameCount_eq_one_of_nodup (n : String) (l : List String)
    (hnd : l.Nodup) (hm : n ∈ l) : nameCount n l = 1 := by
  induction l with
  | nil => simp at hm
  | cons m rest ih =>
    rw [List.nodup_cons] at hnd
    rcases List.mem_cons.mp hm with heq | hrest
    · have hzero : nameCount n rest = 0 :=
        nameCount_eq_zero n rest (by rw [heq]; exact hnd.1)
      simp [nameCount, heq.symm, hzero]
    · have hne : ¬ m = n := fun hc => hnd.1 (hc ▸ hrest)
      simp [nameCount, hne]
      exact ih hnd.2 hrest

/-- `run_all_stages` invokes `cleanup()` exactly once for its own unit and
never for any other. -/
theorem cleanupCount_runAllStages (u : SubUnit) (n : String) :
    cleanupCount n (runAllStages u).1 = if u.name = n then 1 else 0 := by
  rcases hi : u.initRes with _ | e <;> rcases hr : u.runRes with _ | e' <;>
    rcases hp : u.postRes with _ | e'' <;> rcases hc : u.cleanRes with _ | d <;>
    simp [runAllStages, tryAllStages, hi, hr, hp, hc, cleanupCount,
      cleanupCount_append] <;>
    split <;> simp [cleanupCount]

/-- Over a whole `run_once` loop: the started names extend the initial
state by a sub-list of the processed unit names, and the trace contains
exactly one `cleanup()` call per occurrence of a started name. -/
theorem runUnits_cleanup_count : ∀ (units : List SubUnit) (st0 : CallerSt),
    ∃ names, (runUnits units st0).2.1.startNames = st0.startNames ++ names ∧
      (∀ n, cleanupCount n (runUnits units st0).1 = nameCount n names) ∧
      names.Sublist (units.map SubUnit.name) := by
  intro units
  induction units with
  | nil =>
    intro st0
    exact ⟨[], by simp [runUnits], fun n => by simp [runUnits, cleanupCount, nameCount],
      by simp⟩
  | cons u rest ih =>
    intro st0
    rcases hl : u.load with _ | _ | e
    · -- loaded
      rcases ha : runAllStages u with ⟨evs, succ, uoc⟩
      have hcnt : ∀ n, cleanupCount n evs = if u.name = n then 1 else 0 := by
        intro n
        have := cleanupCount_runAllStages u n
        rw [ha] at this
        exact this
      rcases uoc with _ | e | e
      · -- done
        rcases hr : runUnits rest ⟨st0.startNames ++ [u.name],
            if succ then st0.finalNames ++ [u.name] else st0.finalNames⟩
          with ⟨evs2, st2, oc2⟩
        obtain ⟨names, hsn, hcn, hsub⟩ := ih ⟨st0.startNames ++ [u.name],
            if succ then st0.finalNames ++ [u.name] else st0.finalNames⟩
        rw [hr] at hsn hcn
        refine ⟨u.name :: names, ?_, ?_, ?_⟩
        · simp only [runUnits, hl, ha, hr]
          simp at hsn
          simp [hsn]
        · intro n
          simp only [runUnits, hl, ha, hr]
          simp [cleanupCount, cleanupCount_append, hcnt n, hcn n, nameCount]
        · simpa using List.Sublist.cons₂ u.name hsub
      · -- stageErr
        refine ⟨[u.name], ?_, ?_, ?_⟩
        · simp [runUnits, hl, ha]
        · intro n
          simp [runUnits, hl, ha, cleanupCount, hcnt n, nameCount]
        · simpa using List.Sublist.cons₂ u.name (List.nil_sublist _)
      · -- cleanupErr
        refine ⟨[u.name], ?_, ?_, ?_⟩
        · simp [runUnits, hl, ha]
        · intro n
          simp [runUnits, hl, ha, cleanupCount, hcnt n, nameCount]
        · simpa using List.Sublist.cons₂ u.name (List.nil_sublist _)
    · -- skipped
      rcases hr : runUnits rest st0 with ⟨evs, st', oc⟩
      obtain ⟨names, hsn, hcn, hsub⟩ := ih st0
      rw [hr] at hsn hcn
      refine ⟨names, ?_, ?_, List.Sublist.cons _ hsub⟩
      · simp only [runUnits, hl, hr]
        exact hsn
      · intro n
        simp only [runUnits, hl, hr]
        simp [cleanupCount, hcn n]
    · -- load raises
      refine ⟨[], by simp [runUnits, hl], fun n => by simp [runUnits, hl, cleanupCount, nameCount],
        List.nil_sublist _⟩

/-- Only a non-autotest exception propagates out of `try_all_stages`. -/
theorem tryAllStages_prop (u : SubUnit) (e : Exc) :
    (tryAllStages u).2.2 = some e → e.isAutotest = false := by
  intro h
  rcases hi : u.initRes with _ | e1 <;> rcases hr : u.runRes with _ | e2 <;>
    rcases hp : u.postRes with _ | e3 <;>
    simp [tryAllStages, hi, hr, hp] at h <;> exact h.2 ▸ h.1

/-- When a stage exception escapes `run_all_stages`, it is non-autotest and
the very last event is the `cleanup()` call of that unit. -/
theorem runAllStages_stageErr (u : SubUnit) (e : Exc)
    (h : (runAllStages u).2.2 = .stageErr e) :
    e.isAutotest = false ∧
    (runAllStages u).1.getLast? = some (Event.cleanupCall u.name) := by
  rcases ht : tryAllStages u with ⟨evs, succ, prop⟩
  rcases hc : u.cleanRes with _ | d
  · simp only [runAllStages, ht, hc] at h ⊢
    constructor
    · cases hp : prop with
      | none => rw [hp] at h; cases h
      | some e' =>
        rw [hp] at h
        have he' : e' = e := by cases h; rfl
        have := tryAllStages_prop u e'
        rw [ht] at this
        exact he' ▸ this hp
    · rw [show Event.start u.name :: evs ++ [Event.cleanupCall u.name] =
        (Event.start u.name :: evs) ++ [Event.cleanupCall u.name] from rfl]
      rw [List.getLast?_append_of_ne_nil _ (by simp)]
      rfl
  · simp only [runAllStages, ht, hc] at h
    cases h

theorem getLast_cons_of_some {l : List Event} {x a : Event}
    (h : l.getLast? = some a) : (x :: l).getLast? = some a := by
  cases l with
  | nil => cases h
  | cons y ys => rw [List.getLast?_cons_cons]; exact h

theorem getLast_append_of_some {l1 l2 : List Event} {a : Event}
    (h : l2.getLast? = some a) : (l1 ++ l2).getLast? = some a := by
  cases l2 with
  | nil => cases h
  | cons y ys =>
    rw [List.getLast?_append_of_ne_nil _ (by simp)]
    exact h

/-- When the `run_once` loop aborts with a stage exception of unit `n`, the
exception is non-autotest and the trace ends with the `cleanup()` of `n`. -/
theorem runUnits_stageErr : ∀ (units : List SubUnit) (st0 : CallerSt) (n : String) (e : Exc),
    (runUnits units st0).2.2 = .stageErr n e →
    e.isAutotest = false ∧
    (runUnits units st0).1.getLast? = some (Event.cleanupCall n) := by
  intro units
  induction units with
  | nil =>
    intro st0 n e h
    cases h
  | cons u rest ih =>
    intro st0 n e h
    rcases hl : u.load with _ | _ | e0
    · -- loaded
      rcases ha : runAllStages u with ⟨evs, succ, uoc⟩
      rcases uoc with _ | e1 | e1
      · -- done: outcome comes from the rest
        rcases hr : runUnits rest ⟨st0.startNames ++ [u.name],
            if succ then st0.finalNames ++ [u.name] else st0.finalNames⟩
          with ⟨evs2, st2, oc2⟩
        simp only [runUnits, hl, ha, hr] at h ⊢
        have := ih ⟨st0.startNames ++ [u.name],
            if succ then st0.finalNames ++ [u.name] else st0.finalNames⟩ n e
        rw [hr] at this
        obtain ⟨hia, hgl⟩ := this h
        exact ⟨hia, getLast_cons_of_some (getLast_append_of_some hgl)⟩
      · -- stageErr here
        simp only [runUnits, hl, ha] at h ⊢
        have hne : n = u.name ∧ e1 = e := by cases h; exact ⟨rfl, rfl⟩
        have := runAllStages_stageErr u e1
        rw [ha] at this
        obtain ⟨hia, hgl⟩ := this rfl
        refine ⟨hne.2 ▸ hia, ?_⟩
        rw [hne.1]
        exact getLast_cons_of_some hgl
      · -- cleanupErr: not a stageErr
        simp only [runUnits, hl, ha] at h
        cases h
    · -- skipped
      rcases hr : runUnits rest st0 with ⟨evs, st', oc⟩
      simp only [runUnits, hl, hr] at h ⊢
      have := ih st0 n e
      rw [hr] at this
      obtain ⟨hia, hgl⟩ := this h
      exact ⟨hia, getLast_cons_of_some hgl⟩
    · -- load raised
      simp only [runUnits, hl] at h
      cases h

/-- C1: for every sub-subtest the `SubSubtestCaller` starts (added to
`start_subsubtests`), its `cleanup()` is invoked exactly once even if
`initialize`, `run_once` or `postprocess` raises; and an unexpected
(non-autotest) exception raised in those stages propagates past the
orchestrator only after the `cleanup()` of that unit was invoked (it is the
final event of the aborted trace). -/
theorem C1_cleanup_always_runs : ∀ (units : List SubUnit), (units.map SubUnit.name).Nodup →
    (∀ n, n ∈ (runUnits units ⟨[], []⟩).2.1.startNames →
      cleanupCount n (runUnits units ⟨[], []⟩).1 = 1) ∧
    (∀ n e, (runUnits units ⟨[], []⟩).2.2 = .stageErr n e →
      e.isAutotest = false ∧
      (runUnits units ⟨[], []⟩).1.getLast? = some (Event.cleanupCall n)) := by
  intro units hnd
  constructor
  · intro n hmem
    obtain ⟨names, hsn, hcn, hsub⟩ := runUnits_cleanup_count units ⟨[], []⟩
    rw [hsn] at hmem
    simp at hmem
    rw [hcn n]
    exact nameCount_eq_one_of_nodup n names (List.Nodup.sublist hsub hnd) hmem
  · intro n e h
    exact runUnits_stageErr units ⟨[], []⟩ n e h

def c1UnitOk : SubUnit := ⟨"alpha", .loaded, .ok, .ok, .ok, .ok⟩
def c1UnitBoom : SubUnit := ⟨"beta", .loaded, .ok, .raise (.pyOther "boom"), .ok, .ok⟩

/-- C1 witness: a passing unit followed by a unit whose `run_once` raises a
non-autotest exception — both cleanups run exactly once and the trace ends
with the cleanup of the failing unit. -/
theorem C1_cleanup_always_runs_witness :
    (["alpha", "beta"] : List String).Nodup ∧
    cleanupCount "alpha" (runUnits [c1UnitOk, c1UnitBoom] ⟨[], []⟩).1 = 1 ∧
    cleanupCount "beta" (runUnits [c1UnitOk, c1UnitBoom] ⟨[], []⟩).1 = 1 ∧
    Exc.isAutotest (.pyOther "boom") = false ∧
    (runUnits [c1UnitOk, c1UnitBoom] ⟨[], []⟩).1.getLast? = some (Event.cleanupCall "beta") := by
  have h := C1_cleanup_always_runs [c1UnitOk, c1UnitBoom] (by decide)
  have hs := h.2 "beta" (.pyOther "boom") (by decide)
  exact ⟨by decide, h.1 "alpha" (by decide), h.1 "beta" (by decide), hs.1, hs.2⟩

/-- Orchestrator invariant: every completed name was started. -/
theorem runUnits_final_sub_start : ∀ (units : List SubUnit) (st0 : CallerSt),
    (∀ n, n ∈ st0.finalNames → n ∈ st0.startNames) →
    ∀ n, n ∈ (runUnits units st0).2.1.finalNames →
      n ∈ (runUnits units st0).2.1.startNames := by
  intro units
  induction units with
  | nil =>
    intro st0 h0 n hn
    simpa [runUnits] using h0 n (by simpa [runUnits] using hn)
  | cons u rest ih =>
    intro st0 h0 n hn
    rcases hl : u.load with _ | _ | e0
    · rcases ha : runAllStages u with ⟨evs, succ, uoc⟩
      have hstep : ∀ m, m ∈ (if succ then st0.finalNames ++ [u.name] else st0.finalNames) →
          m ∈ st0.startNames ++ [u.name] := by
        intro m hm
        cases succ with
        | true =>
          simp only [if_pos] at hm
          rcases List.mem_append.mp hm with h | h
          · exact List.mem_append.mpr (Or.inl (h0 m h))
          · exact List.mem_append.mpr (Or.inr h)
        | false =>
          simp only [if_neg] at hm
          exact List.mem_append.mpr (Or.inl (h0 m hm))
      rcases uoc with _ | e1 | e1
      · rcases hr : runUnits rest ⟨st0.startNames ++ [u.name],
            if succ then st0.finalNames ++ [u.name] else st0.finalNames⟩
          with ⟨evs2, st2, oc2⟩
        simp only [runUnits, hl, ha, hr] at hn ⊢
        have := ih ⟨st0.startNames ++ [u.name],
            if succ then st0.finalNames ++ [u.name] else st0.finalNames⟩ hstep n
        rw [hr] at this
        exact this hn
      · simp only [runUnits, hl, ha] at hn ⊢
        exact hstep n hn
      · simp only [runUnits, hl, ha] at hn ⊢
        exact hstep n hn
    · rcases hr : runUnits rest st0 with ⟨evs, st', oc⟩
      simp only [runUnits, hl, hr] at hn ⊢
      have := ih st0 h0 n
      rw [hr] at this
      exact this hn
    · simp only [runUnits, hl] at hn ⊢
      exact h0 n hn

/-- C4: `final_subsubtests` is always a subset of the started names, and
under that invariant `SubSubtestCaller.postprocess` passes if and only if
the completed set equals the started set; when they differ it raises a
single DockerTestFail naming exactly the started-but-not-completed units. -/
theorem C4_postprocess_pass_iff_sets_equal :
    (∀ (units : List SubUnit) (n : String),
      n ∈ (runUnits units ⟨[], []⟩).2.1.finalNames →
      n ∈ (runUnits units ⟨[], []⟩).2.1.startNames) ∧
    (∀ (started finals : Finset String), finals ⊆ started →
      ((callerPostproc started finals = none ↔ finals = started) ∧
       (∀ s, callerPostproc started finals = some s →
          s = started \ finals ∧ s.Nonempty))) := by
  constructor
  · intro units n
    exact runUnits_final_sub_start units ⟨[], []⟩ (by simp) n
  · intro started finals hsub
    have hpp : callerPostproc started finals =
        if started \ finals = ∅ then none else some (started \ finals) := rfl
    constructor
    · rw [hpp]
      by_cases h : started \ finals = ∅
      · rw [if_pos h]
        rw [Finset.sdiff_eq_empty_iff_subset] at h
        exact ⟨fun _ => Finset.Subset.antisymm hsub h, fun _ => rfl⟩
      · rw [if_neg h]
        constructor
        · intro hc
          cases hc
        · intro heq
          refine absurd ?_ h
          rw [heq]
          exact Finset.sdiff_self started
    · intro s hs
      rw [hpp] at hs
      by_cases h : started \ finals = ∅
      · rw [if_pos h] at hs; cases hs
      · rw [if_neg h] at hs
        have hseq : s = started \ finals := by cases hs; rfl
        exact ⟨hseq, by rw [hseq]; exact Finset.nonempty_iff_ne_empty.mpr h⟩

/-- C4 witness: with started `a, b` and completed `a`, postprocess fails
naming exactly `b`; with both sets `a`, it passes. -/
theorem C4_postprocess_pass_iff_sets_equal_witness :
    ({"a"} : Finset String) ⊆ {"a", "b"} ∧
    callerPostproc {"a"} {"a"} = none ∧
    ({"b"} : Finset String) = ({"a", "b"} : Finset String) \ {"a"} ∧
    Finset.Nonempty ({"b"} : Finset String) := by
  have h := C4_postprocess_pass_iff_sets_equal.2 {"a", "b"} {"a"} (by decide)
  have h2 := C4_postprocess_pass_iff_sets_equal.2 {"a"} {"a"} (by decide)
  have hsome : callerPostproc {"a", "b"} {"a"} = some {"b"} := by decide
  have hres := h.2 {"b"} hsome
  exact ⟨by decide, h2.1.mpr rfl, hres.1, hres.2⟩

theorem C10_empty_subsubtests_raises_na : ∀ (lookupUnit : String → SubUnit),
    callerFullRun "" lookupUnit =
      .error (.testNA "No subsubtests enabled in configuration.") ∧
    (∀ res, callerFullRun "" lookupUnit ≠ .ok res) := by
  intro f
  refine ⟨rfl, ?_⟩
  intro res hc
  cases hc

/-- `SubSubtestCallerSimultaneous.initialize` (subtest.py 655..669): load
and start every unit, try the `initialize` of each unit independently, catching
only AutotestError; survivors form `run_subsubtests`. -/
def simulInit : List SubUnit → List Event × List SubUnit × List SubUnit × Option Exc
  | [] => ([], [], [], none)
  | u :: rest =>
    match u.load with
    | .raise e => ([Event.load u.name], [], [], some e)
    | .skipped =>
      let (tr, s, r, p) := simulInit rest
      (Event.load u.name :: tr, s, r, p)
    | .loaded =>
      match u.initRes with
      | .ok =>
        let (tr, s, r, p) := simulInit rest
        (Event.load u.name :: Event.start u.name :: Event.initCall u.name :: tr,
         u :: s, u :: r, p)
      | .raise e =>
        if e.isAutotest then
          let (tr, s, r, p) := simulInit rest
          (Event.load u.name :: Event.start u.name :: Event.initCall u.name :: tr,
           u :: s, r, p)
        else
          ([Event.load u.name, Event.start u.name, Event.initCall u.name], [u], [], some e)

/-- `SubSubtestCallerSimultaneous.run_once` (subtest.py 671..681): call
`run_once` on every survivor of the initialize stage, catching only
AutotestError; survivors form `post_subsubtests`. -/
def simulRunOnce : List SubUnit → List Event × List SubUnit × Option Exc
  | [] => ([], [], none)
  | u :: rest =>
    match u.runRes with
    | .ok =>
      let (tr, p, e) := simulRunOnce rest
      (Event.runCall u.name :: tr, u :: p, e)
    | .raise ex =>
      if ex.isAutotest then
        let (tr, p, e) := simulRunOnce rest
        (Event.runCall u.name :: tr, p, e)
      else ([Event.runCall u.name], [], some ex)

/-- The per-unit loop of `SubSubtestCallerSimultaneous.postprocess`
(subtest.py 683..696): call `postprocess` on every survivor of the
run stage, collecting the passed set. -/
def simulPostStage : List SubUnit → List Event × List String × Option Exc
  | [] => ([], [], none)
  | u :: rest =>
    match u.postRes with
    | .ok =>
      let (tr, f, e) := simulPostStage rest
      (Event.postCall u.name :: tr, u.name :: f, e)
    | .raise ex =>
      if ex.isAutotest then
        let (tr, f, e) := simulPostStage rest
        (Event.postCall u.name :: tr, f, e)
      else ([Event.postCall u.name], [], some ex)

/-- A full stage-batched run: initialize stage, then the run stage for its
survivors, then the postprocess stage, then the passed-set comparison of
`postprocess` (subtest.py 697..699).  A non-autotest exception aborts the
remaining stages. -/
def simulRunAll (units : List SubUnit) : List Event × Option Exc :=
  let (tr1, started, runs, p1) := simulInit units
  match p1 with
  | some e => (tr1, some e)
  | none =>
    let (tr2, posts, p2) := simulRunOnce runs
    match p2 with
    | some e => (tr1 ++ tr2, some e)
    | none =>
      let (tr3, finals, p3) := simulPostStage posts
      match p3 with
      | some e => (tr1 ++ tr2 ++ tr3, some e)
      | none =>
        if finals.toFinset = (started.map SubUnit.name).toFinset then
          (tr1 ++ tr2 ++ tr3, none)
        else (tr1 ++ tr2 ++ tr3, some (.testFail "Sub-subtest failures"))

/-- Initialize-stage trace facts: no run or postprocess events; every
started unit had `initialize` attempted; `run_subsubtests` holds only units
of the input whose `initialize` returned normally. -/
theorem simulInit_facts : ∀ (units : List SubUnit),
    (∀ n, Event.runCall n ∉ (simulInit units).1 ∧ Event.postCall n ∉ (simulInit units).1) ∧
    (∀ n, Event.start n ∈ (simulInit units).1 → Event.initCall n ∈ (simulInit units).1) ∧
    (∀ u ∈ (simulInit units).2.2.1, u ∈ units ∧ u.initRes = .ok) := by
  intro units
  induction units with
  | nil =>
    exact ⟨fun n => by simp [simulInit], fun n h => by simp [simulInit] at h,
      fun u hu => by simp [simulInit] at hu⟩
  | cons u rest ih =>
    rcases hr : simulInit rest with ⟨tr, s, r, p⟩
    obtain ⟨ih1, ih2, ih3⟩ := ih
    rw [hr] at ih1 ih2 ih3
    rcases hl : u.load with _ | _ | e0
    · rcases hi : u.initRes with _ | e1
      · refine ⟨fun n => ?_, fun n hn => ?_, fun v hv => ?_⟩
        · simp only [simulInit, hl, hi, hr]
          simp [ih1 n |>.1, ih1 n |>.2]
        · simp only [simulInit, hl, hi, hr] at hn ⊢
          simp only [List.mem_cons] at hn ⊢
          rcases hn with h | h | h | h
          · cases h
          · exact Or.inr (Or.inr (Or.inl (by cases h; rfl)))
          · cases h
          · exact Or.inr (Or.inr (Or.inr (ih2 n h)))
        · simp only [simulInit, hl, hi, hr] at hv
          simp only [List.mem_cons] at hv
          rcases hv with h | h
          · exact ⟨List.mem_cons.mpr (Or.inl h), h ▸ hi⟩
          · obtain ⟨hm, ho⟩ := ih3 v h
            exact ⟨List.mem_cons.mpr (Or.inr hm), ho⟩
      · by_cases ha : e1.isAutotest
        · refine ⟨fun n => ?_, fun n hn => ?_, fun v hv => ?_⟩
          · simp only [simulInit, hl, hi, if_pos ha, hr]
            simp [ih1 n |>.1, ih1 n |>.2]
          · simp only [simulInit, hl, hi, if_pos ha, hr] at hn ⊢
            simp only [List.mem_cons] at hn ⊢
            rcases hn with h | h | h | h
            · cases h
            · exact Or.inr (Or.inr (Or.inl (by cases h; rfl)))
            · cases h
            · exact Or.inr (Or.inr (Or.inr (ih2 n h)))
          · simp only [simulInit, hl, hi, if_pos ha, hr] at hv
            obtain ⟨hm, ho⟩ := ih3 v hv
            exact ⟨List.mem_cons.mpr (Or.inr hm), ho⟩
        · refine ⟨fun n => ?_, fun n hn => ?_, fun v hv => ?_⟩
          · simp only [simulInit, hl, hi, if_neg ha]
            simp
          · simp only [simulInit, hl, hi, if_neg ha] at hn ⊢
            simp only [List.mem_cons] at hn ⊢
            rcases hn with h | h | h | h
            · cases h
            · exact Or.inr (Or.inr (Or.inl (by cases h; rfl)))
            · cases h
            · cases h
          · simp only [simulInit, hl, hi, if_neg ha] at hv
            simp at hv
    · refine ⟨fun n => ?_, fun n hn => ?_, fun v hv => ?_⟩
      · simp only [simulInit, hl, hr]
        simp [ih1 n |>.1, ih1 n |>.2]
      · simp only [simulInit, hl, hr] at hn ⊢
        simp only [List.mem_cons] at hn ⊢
        rcases hn with h | h
        · cases h
        · exact Or.inr (ih2 n h)
      · simp only [simulInit, hl, hr] at hv
        obtain ⟨hm, ho⟩ := ih3 v hv
        exact ⟨List.mem_cons.mpr (Or.inr hm), ho⟩
    · refine ⟨fun n => ?_, fun n hn => ?_, fun v hv => ?_⟩
      · simp only [simulInit, hl]
        simp
      · simp only [simulInit, hl] at hn ⊢
        simp at hn
      · simp only [simulInit, hl] at hv
        simp at hv

/-- Run-stage trace facts: only run events, attributed to survivor units. -/
theorem simulRunOnce_facts : ∀ (runs : List SubUnit),
    (∀ n, Event.runCall n ∈ (simulRunOnce runs).1 → n ∈ runs.map SubUnit.name) ∧
    (∀ n, Event.start n ∉ (simulRunOnce runs).1 ∧ Event.initCall n ∉ (simulRunOnce runs).1 ∧
      Event.postCall n ∉ (simulRunOnce runs).1) ∧
    (∀ u ∈ (simulRunOnce runs).2.1, u ∈ runs) := by
  intro runs
  induction runs with
  | nil =>
    exact ⟨fun n h => by simp [simulRunOnce] at h, fun n => by simp [simulRunOnce],
      fun u hu => by simp [simulRunOnce] at hu⟩
  | cons u rest ih =>
    rcases hr : simulRunOnce rest with ⟨tr, p, e⟩
    obtain ⟨ih1, ih2, ih3⟩ := ih
    rw [hr] at ih1 ih2 ih3
    have step : ∀ (tail : List Event) (pp : List SubUnit),
        (∀ n, Event.runCall n ∈ tail → n ∈ rest.map SubUnit.name) →
        (∀ n, Event.start n ∉ tail ∧ Event.initCall n ∉ tail ∧ Event.postCall n ∉ tail) →
        (∀ n, Event.runCall n ∈ Event.runCall u.name :: tail →
          n ∈ (u :: rest).map SubUnit.name) ∧
        (∀ n, Event.start n ∉ Event.runCall u.name :: tail ∧
          Event.initCall n ∉ Event.runCall u.name :: tail ∧
          Event.postCall n ∉ Event.runCall u.name :: tail) := by
      intro tail pp t1 t2
      constructor
      · intro n hn
        rcases List.mem_cons.mp hn with h | h
        · have hnu : n = u.name := by cases h; rfl
          simp [hnu]
        · simp only [List.map_cons, List.mem_cons]
          exact Or.inr (t1 n h)
      · intro n
        refine ⟨?_, ?_, ?_⟩
        · intro hc
          rcases List.mem_cons.mp hc with h | h
          · cases h
          · exact (t2 n).1 h
        · intro hc
          rcases List.mem_cons.mp hc with h | h
          · cases h
          · exact (t2 n).2.1 h
        · intro hc
          rcases List.mem_cons.mp hc with h | h
          · cases h
          · exact (t2 n).2.2 h
    rcases hs : u.runRes with _ | ex
    · obtain ⟨a1, a2⟩ := step tr p ih1 ih2
      refine ⟨?_, ?_, ?_⟩
      · intro n hn
        apply a1
        simpa [simulRunOnce, hs, hr] using hn
      · intro n
        have := a2 n
        simpa [simulRunOnce, hs, hr] using this
      · intro v hv
        simp only [simulRunOnce, hs, hr] at hv
        rcases List.mem_cons.mp hv with h | h
        · exact List.mem_cons.mpr (Or.inl h)
        · exact List.mem_cons.mpr (Or.inr (ih3 v h))
    · by_cases ha : ex.isAutotest
      · obtain ⟨a1, a2⟩ := step tr p ih1 ih2
        refine ⟨?_, ?_, ?_⟩
        · intro n hn
          apply a1
          simpa [simulRunOnce, hs, if_pos ha, hr] using hn
        · intro n
          have := a2 n
          simpa [simulRunOnce, hs, if_pos ha, hr] using this
        · intro v hv
          simp only [simulRunOnce, hs, if_pos ha, hr] at hv
          exact List.mem_cons.mpr (Or.inr (ih3 v hv))
      · obtain ⟨a1, a2⟩ := step [] [] (fun n h => by simp at h) (fun n => by simp)
        refine ⟨?_, ?_, ?_⟩
        · intro n hn
          apply a1
          simpa [simulRunOnce, hs, if_neg ha] using hn
        · intro n
          have := a2 n
          simpa [simulRunOnce, hs, if_neg ha] using this
        · intro v hv
          simp [simulRunOnce, hs, if_neg ha] at hv

/-- Postprocess-stage trace facts: only postprocess events, attributed to
survivor units. -/
theorem simulPostStage_facts : ∀ (posts : List SubUnit),
    (∀ n, Event.postCall n ∈ (simulPostStage posts).1 → n ∈ posts.map SubUnit.name) ∧
    (∀ n, Event.start n ∉ (simulPostStage posts).1 ∧
      Event.initCall n ∉ (simulPostStage posts).1 ∧
      Event.runCall n ∉ (simulPostStage posts).1) := by
  intro posts
  induction posts with
  | nil =>
    exact ⟨fun n h => by simp [simulPostStage] at h, fun n => by simp [simulPostStage]⟩
  | cons u rest ih =>
    rcases hr : simulPostStage rest with ⟨tr, f, e⟩
    obtain ⟨ih1, ih2⟩ := ih
    rw [hr] at ih1 ih2
    have step : ∀ (tail : List Event),
        (∀ n, Event.postCall n ∈ tail → n ∈ rest.map SubUnit.name) →
        (∀ n, Event.start n ∉ tail ∧ Event.initCall n ∉ tail ∧ Event.runCall n ∉ tail) →
        (∀ n, Event.postCall n ∈ Event.postCall u.name :: tail →
          n ∈ (u :: rest).map SubUnit.name) ∧
        (∀ n, Event.start n ∉ Event.postCall u.name :: tail ∧
          Event.initCall n ∉ Event.postCall u.name :: tail ∧
          Event.runCall n ∉ Event.postCall u.name :: tail) := by
      intro tail t1 t2
      constructor
      · intro n hn
        rcases List.mem_cons.mp hn with h | h
        · have hnu : n = u.name := by cases h; rfl
          simp [hnu]
        · simp only [List.map_cons, List.mem_cons]
          exact Or.inr (t1 n h)
      · intro n
        refine ⟨?_, ?_, ?_⟩ <;> intro hc <;> rcases List.mem_cons.mp hc with h | h
        · cases h
        · exact (t2 n).1 h
        · cases h
        · exact (t2 n).2.1 h
        · cases h
        · exact (t2 n).2.2 h
    rcases hs : u.postRes with _ | ex
    · obtain ⟨a1, a2⟩ := step tr ih1 ih2
      refine ⟨?_, ?_⟩
      · intro n hn
        apply a1
        simpa [simulPostStage, hs, hr] using hn
      · intro n
        have := a2 n
        simpa [simulPostStage, hs, hr] using this
    · by_cases ha : ex.isAutotest
      · obtain ⟨a1, a2⟩ := step tr ih1 ih2
        refine ⟨?_, ?_⟩
        · intro n hn
          apply a1
          simpa [simulPostStage, hs, if_pos ha, hr] using hn
        · intro n
          have := a2 n
          simpa [simulPostStage, hs, if_pos ha, hr] using this
      · obtain ⟨a1, a2⟩ := step [] (fun n h => by simp at h) (fun n => by simp)
        refine ⟨?_, ?_⟩
        · intro n hn
          apply a1
          simpa [simulPostStage, hs, if_neg ha] using hn
        · intro n
          have := a2 n
          simpa [simulPostStage, hs, if_neg ha] using this

/-- Trace decomposition of a full stage-batched run: start events come from
the initialize stage (where start is always followed by an initialize
attempt); run and postprocess events belong to units that survived
`initialize`. -/
theorem simulRunAll_facts (units : List SubUnit) :
    (∀ n, Event.start n ∈ (simulRunAll units).1 → Event.start n ∈ (simulInit units).1) ∧
    (∀ n, Event.initCall n ∈ (simulInit units).1 →
      Event.initCall n ∈ (simulRunAll units).1) ∧
    (∀ n, Event.runCall n ∈ (simulRunAll units).1 →
      n ∈ (simulInit units).2.2.1.map SubUnit.name) ∧
    (∀ n, Event.postCall n ∈ (simulRunAll units).1 →
      ∃ u ∈ (simulInit units).2.2.1, u.name = n) := by
  obtain ⟨i1, i2, i3⟩ := simulInit_facts units
  rcases h1 : simulInit units with ⟨tr1, started, runs, _ | e1⟩
  · obtain ⟨r2a, r2b, r2c⟩ := simulRunOnce_facts runs
    rw [h1] at i1 i2 i3
    rcases h2 : simulRunOnce runs with ⟨tr2, posts, _ | e2⟩
    · obtain ⟨r3a, r3b⟩ := simulPostStage_facts posts
      rw [h2] at r2a r2b r2c
      rcases h3 : simulPostStage posts with ⟨tr3, finals, _ | e3⟩
      · rw [h3] at r3a r3b
        have htr : (simulRunAll units).1 = tr1 ++ tr2 ++ tr3 := by
          simp only [simulRunAll, h1, h2, h3]
          split <;> rfl
        rw [htr]
        refine ⟨fun n hn => ?_, fun n hn => ?_, fun n hn => ?_, fun n hn => ?_⟩
        · rcases List.mem_append.mp hn with h | h
          · rcases List.mem_append.mp h with h' | h'
            · exact h'
            · exact absurd h' (r2b n).1
          · exact absurd h (r3b n).1
        · exact List.mem_append.mpr (Or.inl (List.mem_append.mpr (Or.inl hn)))
        · rcases List.mem_append.mp hn with h | h
          · rcases List.mem_append.mp h with h' | h'
            · exact absurd h' (i1 n).1
            · exact r2a n h'
          · exact absurd h (r3b n).2.2
        · rcases List.mem_append.mp hn with h | h
          · rcases List.mem_append.mp h with h' | h'
            · exact absurd h' (i1 n).2
            · exact absurd h' (r2b n).2.2
          · obtain ⟨v, hv, hvn⟩ := List.mem_map.mp (r3a n h)
            exact ⟨v, r2c v hv, hvn⟩
      · rw [h3] at r3a r3b
        have htr : (simulRunAll units).1 = tr1 ++ tr2 ++ tr3 := by
          simp only [simulRunAll, h1, h2, h3]
        rw [htr]
        refine ⟨fun n hn => ?_, fun n hn => ?_, fun n hn => ?_, fun n hn => ?_⟩
        · rcases List.mem_append.mp hn with h | h
          · rcases List.mem_append.mp h with h' | h'
            · exact h'
            · exact absurd h' (r2b n).1
          · exact absurd h (r3b n).1
        · exact List.mem_append.mpr (Or.inl (List.mem_append.mpr (Or.inl hn)))
        · rcases List.mem_append.mp hn with h | h
          · rcases List.mem_append.mp h with h' | h'
            · exact absurd h' (i1 n).1
            · exact r2a n h'
          · exact absurd h (r3b n).2.2
        · rcases List.mem_append.mp hn with h | h
          · rcases List.mem_append.mp h with h' | h'
            · exact absurd h' (i1 n).2
            · exact absurd h' (r2b n).2.2
          · obtain ⟨v, hv, hvn⟩ := List.mem_map.mp (r3a n h)
            exact ⟨v, r2c v hv, hvn⟩
    · rw [h2] at r2a r2b r2c
      have htr : (simulRunAll units).1 = tr1 ++ tr2 := by
        simp only [simulRunAll, h1, h2]
      rw [htr]
      refine ⟨fun n hn => ?_, fun n hn => ?_, fun n hn => ?_, fun n hn => ?_⟩
      · rcases List.mem_append.mp hn with h | h
        · exact h
        · exact absurd h (r2b n).1
      · exact List.mem_append.mpr (Or.inl hn)
      · rcases List.mem_append.mp hn with h | h
        · exact absurd h (i1 n).1
        · exact r2a n h
      · rcases List.mem_append.mp hn with h | h
        · exact absurd h (i1 n).2
        · exact absurd h (r2b n).2.2
  · rw [h1] at i1 i2 i3
    have htr : (simulRunAll units).1 = tr1 := by
      simp only [simulRunAll, h1]
    rw [htr]
    exact ⟨fun n hn => hn, fun n hn => hn,
      fun n hn => absurd hn (i1 n).1, fun n hn => absurd hn (i1 n).2⟩

/-- C7: in `SubSubtestCallerSimultaneous`, for every pair of started units
A and B: if the `initialize` of A raises, the `run_once` and `postprocess`
of A are never invoked, while B (being started) still had its `initialize`
attempted regardless of the failure of A. -/
theorem C7_stage_batching_independence : ∀ (units : List SubUnit), (units.map SubUnit.name).Nodup →
    ∀ A, A ∈ units → Event.start A.name ∈ (simulRunAll units).1 →
    (∀ e, A.initRes = .raise e →
      Event.runCall A.name ∉ (simulRunAll units).1 ∧
      Event.postCall A.name ∉ (simulRunAll units).1) ∧
    (∀ B, B ∈ units → Event.start B.name ∈ (simulRunAll units).1 →
      Event.initCall B.name ∈ (simulRunAll units).1) := by
  intro units hnd A hA _
  obtain ⟨f1, f2, f3, f4⟩ := simulRunAll_facts units
  obtain ⟨i1, i2, i3⟩ := simulInit_facts units
  constructor
  · intro e he
    constructor
    · intro hc
      have hn := f3 A.name hc
      obtain ⟨v, hv, hvn⟩ := List.mem_map.mp hn
      obtain ⟨hvu, hvo⟩ := i3 v hv
      have hva : v = A := List.inj_on_of_nodup_map hnd hvu hA hvn
      rw [hva, he] at hvo
      cases hvo
    · intro hc
      obtain ⟨v, hv, hvn⟩ := f4 A.name hc
      obtain ⟨hvu, hvo⟩ := i3 v hv
      have hva : v = A := List.inj_on_of_nodup_map hnd hvu hA hvn
      rw [hva, he] at hvo
      cases hvo
  · intro B _ hBs
    exact f2 B.name (i2 B.name (f1 B.name hBs))

def c7UnitInitNA : SubUnit := ⟨"ca", .loaded, .raise (.autotestOther "x"), .ok, .ok, .ok⟩
def c7UnitOk : SubUnit := ⟨"cb", .loaded, .ok, .ok, .ok, .ok⟩

/-- C7 witness: unit `ca` fails `initialize` with an autotest error, unit
`cb` passes — `ca` never reaches `run_once`/`postprocess`, while the
`initialize` of `cb` still ran. -/
theorem C7_stage_batching_independence_witness :
    Event.runCall "ca" ∉ (simulRunAll [c7UnitInitNA, c7UnitOk]).1 ∧
    Event.postCall "ca" ∉ (simulRunAll [c7UnitInitNA, c7UnitOk]).1 ∧
    Event.initCall "cb" ∈ (simulRunAll [c7UnitInitNA, c7UnitOk]).1 := by
  have h := C7_stage_batching_independence [c7UnitInitNA, c7UnitOk] (by decide) c7UnitInitNA (by decide) (by decide)
  have h1 := h.1 (.autotestOther "x") (by decide)
  exact ⟨h1.1, h1.2, h.2 c7UnitOk (by decide) (by decide)⟩

/-! ## Claim C9: TextTable parsing

Modelled from the spec: the `TextTable`/`ColumnRanges` implementation
(dockertest/output.py) is not among the provided sources; only its unit
tests (src/dockertest/output_unittests.py, TextTableTest) are.  The row
parser below follows the spec of section 4.2 — header names separated by
whitespace runs give the columns; a data row yields one value per column
with surrounding whitespace trimmed and empty-after-trim mapped to a null
value; only the last column may absorb internal whitespace (the
`three = "3   4"` row of the test); a parsed row is appended only if not
already present unless duplicate rows are explicitly allowed. -/

/-- Python `s.split(None, maxsplit)` on a character list: drop leading
whitespace; with budget 0 the whole remainder (trailing whitespace kept) is
one field; otherwise take one whitespace-free word and recurse. -/
def pySplitMax : Nat → List Char → List (List Char)
  | 0, cs0 =>
    match cs0.dropWhile Char.isWhitespace with
    | [] => []
    | c :: rest => [c :: rest]
  | maxd' + 1, cs0 =>
    match cs0.dropWhile Char.isWhitespace with
    | [] => []
    | c :: rest =>
      ((c :: rest).takeWhile (fun ch => !(Char.isWhitespace ch))) ::
        pySplitMax maxd' ((c :: rest).dropWhile (fun ch => !(Char.isWhitespace ch)))

/-- Strip whitespace from both ends of a character list. -/
def stripChars (l : List Char) : List Char :=
  ((l.dropWhile Char.isWhitespace).reverse.dropWhile Char.isWhitespace).reverse

/-- A parsed table row: column name to trimmed value, null when empty. -/
abbrev Row := List (String × Option String)

/-- Pair column names with parsed fields; missing fields are null. -/
def rowOf : List String → List (List Char) → Row
  | [], _ => []
  | c :: cs, [] => (c, none) :: rowOf cs []
  | c :: cs, f :: fs =>
    let t := stripChars f
    (c, if t = [] then none else some (String.mk t)) :: rowOf cs fs

/-- Modelled from the spec: parse one data line against the column list,
the last column absorbing the remainder of the line. -/
def parseRow (cols : List String) (line : String) : Row :=
  rowOf cols (pySplitMax (cols.length - 1) line.data)

/-- Modelled from the spec: `TextTable.append` appends a row only if not
already present, unless `allow_duplicate` is set. -/
def ttAppend (allowDup : Bool) (rows : List Row) (r : Row) : List Row :=
  if allowDup ∨ ¬ r ∈ rows then rows ++ [r] else rows

/-- Python `str.splitlines()` for newline-separated text: split on the
newline character, without a trailing empty line. -/
def pySplitlines (s : String) : List String :=
  if s.data = [] then []
  else
    let parts := (splitOnChar '\n' s.data).map String.mk
    if s.data.getLast? = some '\n' then parts.dropLast else parts

/-- Whitespace-run tokens of the header line: the column names. -/
def wsTokens (cs : List Char) : List (List Char) := pySplitMax cs.length cs

/-- Modelled from the spec: `TextTable.__init__` parses the first line as
the header and appends one parsed row per remaining line (blank lines
included, yielding all-null rows), with duplicate suppression. -/
def textTableParse (allowDup : Bool) (tbl : String) : List Row :=
  match pySplitlines tbl with
  | [] => []
  | header :: rest =>
    let cols := (wsTokens header.data).map String.mk
    rest.foldl (fun acc line => ttAppend allowDup acc (parseRow cols line)) []

/-- The table block of the claim and of TextTableTest. -/
def c9Table : String :=
  "  one   two   three  \nfoo   bar   \n1     2     3   4  \n\n     a     b     c\n\n"

/-- C9: parsing the claimed block yields exactly the four rows in order —
`{one: foo, two: bar, three: null}`, `{one: 1, two: 2, three: "3   4"}`,
the all-null row from the first blank line, and `{one: a, two: b, three: c}`;
the all-null row from the second blank line is dropped because duplicate
rows are suppressed by default: with duplicates explicitly allowed the same
block parses to five rows, the all-null row appearing twice. -/
theorem C9_texttable_parse :
    textTableParse false c9Table =
      [[("one", some "foo"), ("two", some "bar"), ("three", none)],
       [("one", some "1"), ("two", some "2"), ("three", some "3   4")],
       [("one", none), ("two", none), ("three", none)],
       [("one", some "a"), ("two", some "b"), ("three", some "c")]] ∧
    textTableParse true c9Table =
      [[("one", some "foo"), ("two", some "bar"), ("three", none)],
       [("one", some "1"), ("two", some "2"), ("three", some "3   4")],
       [("one", none), ("two", none), ("three", none)],
       [("one", some "a"), ("two", some "b"), ("three", some "c")],
       [("one", none), ("two", none), ("three", none)]] := by
  constructor <;> decide

/-! ## Claim C5: Config cache isolation (config.py 272..368) -/

/-- Contents of one plain per-section dictionary, as exported by
`Config.copy` (config.py 356..368). -/
abbrev SecData := List (String × String)
/-- The cached `configs_` structure as `Config.copy` reads it: section
name to section contents. -/
abbrev Cache := List (String × SecData)

/-- A heap of Python dictionary objects: section dictionaries and outer
section-name-to-dictionary mappings at numeric addresses.  `Config.__new__`
plus `Config.copy` allocate fresh objects on every call; mutating a
returned copy writes through its addresses only. -/
structure Heap where
  secs : Nat → Option SecData
  outs : Nat → Option (List (String × Nat))
  next : Nat

/-- Allocate one fresh section dictionary per cache entry at consecutive
addresses from `start`: the heap entries and the outer mapping entries. -/
def allocEntries : Cache → Nat → List (Nat × SecData) × List (String × Nat)
  | [], _ => ([], [])
  | (nm, d) :: rest, start =>
    let (hs, es) := allocEntries rest (start + 1)
    ((start, d) :: hs, (nm, start) :: es)

/-- `Config()` construction (config.py 288..295 and 356..368): build a
fresh outer dictionary and fresh plain per-section dictionaries populated
from the cached structure.  The cache itself lives outside the heap and no
heap operation can reach it.  Returns the new heap and the address of the
outer dictionary. -/
def configNew (cache : Cache) (h : Heap) : Heap × Nat :=
  let (hs, es) := allocEntries cache h.next
  let outAddr := h.next + cache.length
  (⟨fun a =>
      match hs.lookup a with
      | some d => some d
      | none => h.secs a,
    fun a => if a = outAddr then some es else h.outs a,
    outAddr + 1⟩, outAddr)

/-- Dereference a returned copy: the outer mapping with every section
address resolved to its current contents. -/
def readConfig (h : Heap) (o : Nat) : Option Cache :=
  (h.outs o).bind fun entries =>
    entries.mapM fun p => (h.secs p.2).map fun d => (p.1, d)

/-- The mutations of a returned copy the claim ranges over: changing or
adding a per-section value, deleting one, and adding, replacing or deleting
a section entry of the outer dictionary. -/
inductive MutOp
  | setVal (a : Nat) (k v : String)
  | delVal (a : Nat) (k : String)
  | setSec (o : Nat) (nm : String) (a : Nat)
  | delSec (o : Nat) (nm : String)
deriving DecidableEq, Repr

/-- The address a mutation writes to. -/
def MutOp.target : MutOp → Nat
  | .setVal a _ _ => a
  | .delVal a _ => a
  | .setSec o _ _ => o
  | .delSec o _ => o

/-- Apply one mutation to the heap; only the target address changes. -/
def applyOp (h : Heap) : MutOp → Heap
  | .setVal a k v =>
    { h with secs := fun x => if x = a then (h.secs a).map (fun d => setEntry d k v)
        else h.secs x }
  | .delVal a k =>
    { h with secs := fun x => if x = a then (h.secs a).map (fun d => d.filter (fun kv => kv.1 != k))
        else h.secs x }
  | .setSec o nm a =>
    { h with outs := fun x => if x = o then (h.outs o).map (fun es => setEntry es nm a)
        else h.outs x }
  | .delSec o nm =>
    { h with outs := fun x => if x = o then (h.outs o).map (fun es => es.filter (fun p => p.1 != nm))
        else h.outs x }

/-- Apply one mutation to the heap; only the target address changes. -/
def applyOps (h : Heap) (ops : List MutOp) : Heap := ops.foldl applyOp h

theorem nat_lookup_none {α : Type} {l : List (Nat × α)} {a : Nat}
    (h : ∀ q ∈ l, q.1 ≠ a) : l.lookup a = none := by
  induction l with
  | nil => rfl
  | cons q rest ih =>
    have hq : ¬ a = q.1 := fun hc => h q (List.mem_cons_self q rest) hc.symm
    simp only [List.lookup, beq_false_of_ne hq]
    exact ih (fun q' hq' => h q' (List.mem_cons_of_mem q hq'))

theorem option_mapM_congr {α β : Type} {l : List α} {f g : α → Option β}
    (h : ∀ a ∈ l, f a = g a) : l.mapM f = l.mapM g := by
  induction l with
  | nil => rfl
  | cons a rest ih =>
    simp only [List.mapM_cons, h a (List.mem_cons_self a rest),
      ih (fun a' ha' => h a' (List.mem_cons_of_mem a ha'))]

/-- Allocated addresses lie in `[start, start + cache.length)`. -/
theorem allocEntries_bounds : ∀ (cache : Cache) (start : Nat),
    (∀ p ∈ (allocEntries cache start).2, start ≤ p.2 ∧ p.2 < start + cache.length) ∧
    (∀ q ∈ (allocEntries cache start).1, start ≤ q.1 ∧ q.1 < start + cache.length) := by
  intro cache
  induction cache with
  | nil => exact fun start => ⟨fun p hp => by simp [allocEntries] at hp,
      fun q hq => by simp [allocEntries] at hq⟩
  | cons nd rest ih =>
    intro start
    obtain ⟨ih1, ih2⟩ := ih (start + 1)
    rcases ha : allocEntries rest (start + 1) with ⟨hs, es⟩
    rw [ha] at ih1 ih2
    constructor
    · intro p hp
      rcases nd with ⟨nm, d⟩
      simp only [allocEntries, ha] at hp
      rcases List.mem_cons.mp hp with h | h
      · rw [h]
        simp only [List.length_cons]
        omega
      · have := ih1 p h
        simp only [List.length_cons]
        omega
    · intro q hq
      rcases nd with ⟨nm, d⟩
      simp only [allocEntries, ha] at hq
      rcases List.mem_cons.mp hq with h | h
      · rw [h]
        simp only [List.length_cons]
        omega
      · have := ih2 q h
        simp only [List.length_cons]
        omega

/-- Reading every freshly allocated section back gives the cache contents,
whatever the underlying heap held before. -/
theorem alloc_read : ∀ (cache : Cache) (start : Nat) (base : Nat → Option SecData),
    (allocEntries cache start).2.mapM
      (fun p => ((match (allocEntries cache start).1.lookup p.2 with
          | some d => some d
          | none => base p.2) : Option SecData).map (fun d => (p.1, d))) = some cache := by
  intro cache
  induction cache with
  | nil => intro start base; rfl
  | cons nd rest ih =>
    intro start base
    rcases nd with ⟨nm, d⟩
    rcases ha : allocEntries rest (start + 1) with ⟨hs, es⟩
    have hbnd := allocEntries_bounds rest (start + 1)
    rw [ha] at hbnd
    have hsl : ∀ a, a ≠ start → ((start, d) :: hs).lookup a = hs.lookup a := by
      intro a hna
      simp [List.lookup, beq_false_of_ne hna]
    have hself : ((start, d) :: hs).lookup start = some d := by
      simp [List.lookup]
    simp only [allocEntries, ha, List.mapM_cons, hself]
    have hcongr : es.mapM
        (fun p => ((match ((start, d) :: hs).lookup p.2 with
            | some dd => some dd
            | none => base p.2) : Option SecData).map (fun dd => (p.1, dd))) =
        es.mapM
        (fun p => ((match hs.lookup p.2 with
            | some dd => some dd
            | none => base p.2) : Option SecData).map (fun dd => (p.1, dd))) := by
      apply option_mapM_congr
      intro p hp
      have hge := (hbnd.1 p hp).1
      have hne : p.2 ≠ start := by omega
      rw [hsl p.2 hne]
    rw [hcongr]
    have := ih (start + 1) base
    rw [ha] at this
    rw [this]
    rfl

/-- A fresh `Config()` copy always reads back as the cached structure. -/
theorem configNew_read (cache : Cache) (h : Heap) :
    readConfig (configNew cache h).1 (configNew cache h).2 = some cache := by
  rcases ha : allocEntries cache h.next with ⟨hs, es⟩
  have : (configNew cache h).1.outs (configNew cache h).2 = some es := by
    simp [configNew, ha]
  unfold readConfig
  rw [this]
  have hr := alloc_read cache h.next h.secs
  rw [ha] at hr
  simpa [configNew, ha] using hr

theorem applyOp_preserve (h : Heap) (op : MutOp) (x : Nat) (hx : x ≠ op.target) :
    (applyOp h op).secs x = h.secs x ∧ (applyOp h op).outs x = h.outs x := by
  rcases op with ⟨a, k, v⟩ | ⟨a, k⟩ | ⟨o, nm, a⟩ | ⟨o, nm⟩ <;>
    simp only [MutOp.target] at hx <;>
    simp [applyOp, hx]

theorem applyOps_preserve (ops : List MutOp) : ∀ (h : Heap) (x : Nat),
    (∀ op ∈ ops, op.target ≠ x) →
    (applyOps h ops).secs x = h.secs x ∧ (applyOps h ops).outs x = h.outs x := by
  induction ops with
  | nil => exact fun h x _ => ⟨rfl, rfl⟩
  | cons op rest ih =>
    intro h x hops
    have h1 := applyOp_preserve h op x
      (fun hc => hops op (List.mem_cons_self op rest) hc.symm)
    have h2 := ih (applyOp h op) x
      (fun op' hop' => hops op' (List.mem_cons_of_mem op hop'))
    exact ⟨h2.1.trans h1.1, h2.2.trans h1.2⟩

/-- Frame rule: mutations that avoid the outer address and all its section
addresses leave the read of that copy unchanged. -/
theorem readConfig_frame (h : Heap) (ops : List MutOp) (o : Nat)
    (es : List (String × Nat)) (ho : h.outs o = some es)
    (hops : ∀ op ∈ ops, op.target ≠ o ∧ ∀ p ∈ es, op.target ≠ p.2) :
    readConfig (applyOps h ops) o = readConfig h o := by
  have houts : (applyOps h ops).outs o = h.outs o :=
    (applyOps_preserve ops h o (fun op hop => (hops op hop).1)).2
  unfold readConfig
  rw [houts, ho]
  simp only [Option.bind_eq_bind, Option.some_bind]
  apply option_mapM_congr
  intro p hp
  have : (applyOps h ops).secs p.2 = h.secs p.2 :=
    (applyOps_preserve ops h p.2 (fun op hop => (hops op hop).2 p hp)).1
  rw [this]

/-- A later construction leaves the read of an older copy unchanged, since
it allocates only fresh addresses. -/
theorem configNew_preserve (cache : Cache) (h : Heap) (o : Nat)
    (es : List (String × Nat)) (ho : h.outs o = some es)
    (hne : o ≠ (configNew cache h).2) (haddr : ∀ p ∈ es, p.2 < h.next) :
    readConfig (configNew cache h).1 o = readConfig h o := by
  rcases ha : allocEntries cache h.next with ⟨hs, es2⟩
  have hbnd := allocEntries_bounds cache h.next
  rw [ha] at hbnd
  have houts : (configNew cache h).1.outs o = h.outs o := by
    have hno : ¬ o = h.next + cache.length := by
      simpa [configNew, ha] using hne
    simp [configNew, ha, hno]
  unfold readConfig
  rw [houts, ho]
  simp only [Option.bind_eq_bind, Option.some_bind]
  apply option_mapM_congr
  intro p hp
  have hlook : hs.lookup p.2 = none := by
    apply nat_lookup_none
    intro q hq
    have := (hbnd.2 q hq).1
    have := haddr p hp
    omega
  simp [configNew, ha, hlook]

theorem configNew_outs_ne (cache : Cache) (h : Heap) (x : Nat)
    (hx : ¬ x = h.next + cache.length) : (configNew cache h).1.outs x = h.outs x := by
  rcases ha : allocEntries cache h.next with ⟨hs, es⟩
  simp [configNew, ha, hx]

theorem configNew_outs_self (cache : Cache) (h : Heap) :
    (configNew cache h).1.outs (configNew cache h).2 =
      some (allocEntries cache h.next).2 := by
  rcases ha : allocEntries cache h.next with ⟨hs, es⟩
  simp [configNew, ha]

/-- C5: two separate `Config()` constructions return disjoint fresh
structures.  The addresses of the second copy all lie at or above the
post-first-construction allocation bound while the first copy lies below
it; mutations confined to the second copy (any list of value or section
changes, additions or deletions at those addresses) leave the first copy
reading back the cached contents, leave a third fresh construction reading
back the cached contents, and symmetrically mutations confined to the
first copy leave the second copy unchanged.  The cache itself is outside
the heap, so no mutation can reach it. -/
theorem C5_config_copy_isolation :
    ∀ (cache : Cache) (h0 : Heap) (ops : List MutOp),
    (∀ op ∈ ops, (configNew cache h0).1.next ≤ op.target) →
    ((configNew cache h0).1.next ≤ (configNew cache (configNew cache h0).1).2 ∧
     (∀ p ∈ (allocEntries cache (configNew cache h0).1.next).2,
        (configNew cache h0).1.next ≤ p.2) ∧
     (configNew cache h0).2 < (configNew cache h0).1.next ∧
     (∀ p ∈ (allocEntries cache h0.next).2, p.2 ≤ (configNew cache h0).2)) ∧
    readConfig (configNew cache (configNew cache h0).1).1 (configNew cache h0).2 =
      some cache ∧
    readConfig (applyOps (configNew cache (configNew cache h0).1).1 ops)
        (configNew cache h0).2 = some cache ∧
    readConfig
        (configNew cache (applyOps (configNew cache (configNew cache h0).1).1 ops)).1
        (configNew cache (applyOps (configNew cache (configNew cache h0).1).1 ops)).2 =
      some cache ∧
    (∀ ops2 : List MutOp, (∀ op ∈ ops2, op.target ≤ (configNew cache h0).2) →
      readConfig (applyOps (configNew cache (configNew cache h0).1).1 ops2)
          (configNew cache (configNew cache h0).1).2 = some cache) := by
  intro cache h0 ops hops
  have hbnd1 := allocEntries_bounds cache h0.next
  have ho1 : (configNew cache h0).2 = h0.next + cache.length := by
    rcases ha1 : allocEntries cache h0.next with ⟨hs1, es1⟩
    simp [configNew, ha1]
  have hn1 : (configNew cache h0).1.next = h0.next + cache.length + 1 := by
    rcases ha1 : allocEntries cache h0.next with ⟨hs1, es1⟩
    simp [configNew, ha1]
  have hbnd2 := allocEntries_bounds cache (configNew cache h0).1.next
  have ho2 : (configNew cache (configNew cache h0).1).2 =
      (configNew cache h0).1.next + cache.length := by
    rcases ha2 : allocEntries cache (configNew cache h0).1.next with ⟨hs2, es2⟩
    simp [configNew, ha2]
  have hes1 : (configNew cache h0).1.outs (configNew cache h0).2 =
      some (allocEntries cache h0.next).2 := configNew_outs_self cache h0
  have hes1go : (configNew cache (configNew cache h0).1).1.outs (configNew cache h0).2 =
      some (allocEntries cache h0.next).2 := by
    rw [configNew_outs_ne cache (configNew cache h0).1 (configNew cache h0).2 (by omega)]
    exact hes1
  have hbase : readConfig (configNew cache (configNew cache h0).1).1 (configNew cache h0).2
      = some cache := by
    rw [configNew_preserve cache (configNew cache h0).1 (configNew cache h0).2
      (allocEntries cache h0.next).2 hes1
      (by omega) (fun p hp => by have := (hbnd1.1 p hp).2; omega)]
    exact configNew_read cache h0
  refine ⟨⟨by omega, fun p hp => (hbnd2.1 p hp).1, by omega,
      fun p hp => by have := (hbnd1.1 p hp).2; omega⟩, hbase, ?_, ?_, ?_⟩
  · rw [readConfig_frame _ ops _ (allocEntries cache h0.next).2 hes1go ?hcond]
    · exact hbase
    case hcond =>
      intro op hop
      have hge := hops op hop
      exact ⟨by omega, fun p hp => by have := (hbnd1.1 p hp).2; omega⟩
  · exact configNew_read cache _
  · intro ops2 hops2
    have hes2 : (configNew cache (configNew cache h0).1).1.outs
        (configNew cache (configNew cache h0).1).2 =
        some (allocEntries cache (configNew cache h0).1.next).2 :=
      configNew_outs_self cache (configNew cache h0).1
    rw [readConfig_frame _ ops2 _ (allocEntries cache (configNew cache h0).1.next).2
      hes2 ?hcond2]
    · exact configNew_read cache _
    case hcond2 =>
      intro op hop
      have hle := hops2 op hop
      refine ⟨by omega, fun p hp => ?_⟩
      have := (hbnd2.1 p hp).1
      omega

def c5Cache : Cache := [("s", [("k", "v")])]
def c5Heap : Heap := ⟨fun _ => none, fun _ => none, 0⟩

/-- C5 witness: a one-section cache, two constructions from the empty
heap; overwriting the section value inside the second copy leaves the
first copy intact, and overwriting inside the first leaves the second
intact. -/
theorem C5_config_copy_isolation_witness :
    readConfig (applyOps (configNew c5Cache (configNew c5Cache c5Heap).1).1
        [MutOp.setVal 2 "k" "w"]) (configNew c5Cache c5Heap).2 = some c5Cache ∧
    readConfig (applyOps (configNew c5Cache (configNew c5Cache c5Heap).1).1
        [MutOp.setVal 0 "k" "z"]) (configNew c5Cache (configNew c5Cache c5Heap).1).2 =
      some c5Cache := by
  have h := C5_config_copy_isolation c5Cache c5Heap [MutOp.setVal 2 "k" "w"] (by decide)
  exact ⟨h.2.2.1, h.2.2.2.2 [MutOp.setVal 0 "k" "z"] (by decide)⟩
